import Mathlib

/-!
# paninoWeb: the page-resolution and templating engine of `build.go`

A shallow embedding of the Go build script.  A Go `string` is modelled by the
list of its characters (`Str`); the texts the program handles are UTF-8, for
which searching by byte and searching by character agree.  Package-level
variables of the program (`config`, `modules`, the static fragments, the build
id and time) and the file system it reads are gathered in the record `Env`.
Console output is not modelled.
-/

set_option autoImplicit false

namespace PaninoWeb

/-- A Go `string`, as the sequence of its characters. -/
abbrev Str := List Char

/-! ## The Go standard library functions the program calls -/

namespace Go

/-- The first occurrence of `pat` in a text: the text before it and the text
after it (`strings.Cut`; the position is that of `strings.Index`). -/
def Cut (pat : Str) : Str → Option (Str × Str)
  | [] => if pat = [] then some ([], []) else none
  | c :: s =>
    if pat.isPrefixOf (c :: s) then some ([], (c :: s).drop pat.length)
    else
      match Cut pat s with
      | none => none
      | some (a, b) => some (c :: a, b)

/-- The loop of `strings.Replace` for a non-empty `old`: cut at the next
occurrence, copy what precedes it, write `new`, go on behind the occurrence. -/
def replaceLoop (old new : Str) : Nat → Str → Str
  | 0, s => s
  | fuel + 1, s =>
    match Cut old s with
    | none => s
    | some (a, b) => a ++ new ++ replaceLoop old new fuel b

/-- `strings.Replace(s, old, new, -1)`, which is `strings.ReplaceAll(s, old, new)`:
every non-overlapping occurrence of `old`, from the left, is replaced by `new`.
An empty `old` matches before every character and at the end. -/
def ReplaceAll (s old new : Str) : Str :=
  if old = new then s
  else if old = [] then new ++ s.flatMap (fun c => c :: new)
  else replaceLoop old new s.length s

/-- `strings.TrimPrefix(s, pre)`. -/
def TrimPrefix (s pre : Str) : Str :=
  if pre.isPrefixOf s then s.drop pre.length else s

/-- `strconv.FormatBool`. -/
def FormatBool (b : Bool) : Str :=
  if b then "true".toList else "false".toList

end Go

/-! ## The regular expression of `ReadFileLang`

`<\? START-LANG \[([a-z]{2})\] \?>([\s\S]*?)<\? END-LANG \?>`, matched the way
Go's `regexp` does: the leftmost match, and in it the shortest inner text. -/

/-- The start marker up to its language code. -/
def startOpen : Str := "<? START-LANG [".toList

/-- The start marker behind its language code. -/
def startClose : Str := "] ?>".toList

/-- The end marker. -/
def endMarker : Str := "<? END-LANG ?>".toList

/-- A literal at the head of a text: what follows it. -/
def stripLit (lit s : Str) : Option Str :=
  if lit.isPrefixOf s then some (s.drop lit.length) else none

/-- A match of the regular expression in a text. -/
structure RegexMatch where
  /-- the text in front of the match -/
  before : Str
  /-- capture group 1, the two lowercase letters -/
  code : Str
  /-- capture group 2, the text between the markers -/
  inner : Str
  /-- the text behind the match -/
  after : Str
deriving DecidableEq, Repr

/-- The matched text (group 0). -/
def RegexMatch.text (m : RegexMatch) : Str :=
  startOpen ++ m.code ++ startClose ++ m.inner ++ endMarker

/-- A match that begins at the head of the text: code, inner text, rest.  The
lazy `[\s\S]*?` stops at the first end marker. -/
def matchHere (s : Str) : Option (Str × Str × Str) :=
  match stripLit startOpen s with
  | some (c1 :: c2 :: r) =>
    if c1.isLower && c2.isLower then
      match stripLit startClose r with
      | some r2 =>
        match Go.Cut endMarker r2 with
        | some (inner, after) => some ([c1, c2], inner, after)
        | none => none
      | none => none
    else none
  | _ => none

/-- The leftmost match in a text. -/
def findMatch : Str → Option RegexMatch
  | [] => none
  | c :: s =>
    match matchHere (c :: s) with
    | some (code, inner, after) => some ⟨[], code, inner, after⟩
    | none =>
      match findMatch s with
      | some m => some ⟨c :: m.before, m.code, m.inner, m.after⟩
      | none => none

/-- The loop of `FindAllString`: successive matches, each search starting
behind the previous match. -/
def findAllLoop : Nat → Str → List Str
  | 0, _ => []
  | fuel + 1, s =>
    match findMatch s with
    | none => []
    | some m => m.text :: findAllLoop fuel m.after

/-- `r.FindAllString(s, -1)`: the texts of all successive matches. -/
def FindAllString (s : Str) : List Str :=
  findAllLoop s.length s

/-- `r.FindStringSubmatch(s)`: the leftmost match with its groups, `none` for
Go's `nil`. -/
def FindStringSubmatch (s : Str) : Option RegexMatch :=
  findMatch s

namespace Go

/-- `path.Clean` on the components of a path: empty and `.` components are
dropped, `..` removes the component before it (below a root it is dropped, at
the start of a relative path it is kept). -/
def cleanStep (rooted : Bool) (stack : List Str) (comp : Str) : List Str :=
  if comp = [] ∨ comp = ['.'] then stack
  else if comp = ['.', '.'] then
    match stack.getLast? with
    | none => if rooted then stack else stack ++ [comp]
    | some top => if top = ['.', '.'] then stack ++ [comp] else stack.dropLast
  else stack ++ [comp]

/-- `path.Clean`. -/
def Clean (p : Str) : Str :=
  if p = [] then ['.']
  else
    let rooted := p.head? = some '/'
    let stack := (p.splitOn '/').foldl (cleanStep rooted) []
    let out := (if rooted then ['/'] else []) ++ List.intercalate ['/'] stack
    if out = [] then ['.'] else out

/-- `path.Join`: the non-empty elements joined by `/`, then cleaned. -/
def Join (elem : List Str) : Str :=
  if (elem.map List.length).sum = 0 then []
  else
    Clean (elem.foldl (fun buf e =>
      if buf ≠ [] ∨ e ≠ [] then (if buf ≠ [] then buf ++ ['/'] else buf) ++ e else buf) [])

/-- The hexadecimal digit of `encoding/json`. -/
def hexDigit (n : Nat) : Char :=
  "0123456789abcdef".toList.getD n '0'

/-- One character of a string in `encoding/json` (HTML escaping on, as
`json.Marshal` has it; backspace and form feed as Go 1.22 and later write
them). -/
def jsonChar (c : Char) : Str :=
  if c = '\"' ∨ c = '\\' then ['\\', c]
  else if c = '\x08' then ['\\', 'b']
  else if c = '\x0c' then ['\\', 'f']
  else if c = '\n' then ['\\', 'n']
  else if c = '\r' then ['\\', 'r']
  else if c = '\t' then ['\\', 't']
  else if c.toNat < 32 ∨ c = '<' ∨ c = '>' ∨ c = '&' then
    ['\\', 'u', '0', '0', hexDigit (c.toNat / 16), hexDigit (c.toNat % 16)]
  else if c.toNat = 0x2028 then "\\u2028".toList
  else if c.toNat = 0x2029 then "\\u2029".toList
  else [c]

/-- A string value in `encoding/json`. -/
def jsonString (s : Str) : Str :=
  ['\"'] ++ s.flatMap jsonChar ++ ['\"']

/-- A `[]string` value in `encoding/json`: `null` for the nil slice. -/
def jsonStrings : Option (List Str) → Str
  | none => "null".toList
  | some l => ['['] ++ List.intercalate [','] (l.map jsonString) ++ [']']

end Go

/-! ## Data model -/

/-- `PageStructure`. -/
structure PageStructure where
  ModuleId : Str
  Animation : Str
deriving DecidableEq, Repr

/-- `MultiLanguageText`. -/
structure MultiLanguageText where
  Id : Str
  Text : Str
deriving DecidableEq, Repr

/-- `Redirect`. -/
structure Redirect where
  Path : Str
  Target : Str
deriving DecidableEq, Repr

/-- `Module`. -/
structure Module where
  Id : Str
  Src : Str
  Type_ : Str
  Scripts : List Str
deriving DecidableEq, Repr

/-- `Route`.  A `nil` list of aliases and an empty one behave alike. -/
structure Route where
  Id : Str
  Path : Str
  Aliases : List Str
  Structure : List PageStructure
  Title : List MultiLanguageText
  Type_ : Str
  Auth : Str
deriving DecidableEq, Repr

/-- `PostMedia`. -/
structure PostMedia where
  Type_ : Str
  Src : Str
deriving DecidableEq, Repr

/-- `PostVersion`. -/
structure PostVersion where
  LangId : Str
  Permalink : Str
  File : Str
  Title : Str
deriving DecidableEq, Repr

/-- `Post`. -/
structure Post where
  Id : Str
  CreatedDate : Str
  LastModifiedDate : Str
  Media : PostMedia
  Versions : List PostVersion
deriving DecidableEq, Repr

/-- `ExportedPage`.  `Scripts` is a Go slice: `none` is the `nil` slice, which
`append` turns into a list. -/
structure ExportedPage where
  Title : Str
  Html : Str
  Scripts : Option (List Str)
deriving DecidableEq, Repr

/-- `Locale`. -/
structure Locale where
  Id : Str
  Path : Str
deriving DecidableEq, Repr

/-- `Config`. -/
structure Config where
  DataPath : Str
  BuildPath : Str
  WebRoot : Str
  SiteTitle : Str
  SiteTitleSeparator : Str
  ReplaceFileExtension : Bool
deriving DecidableEq, Repr

/-- The package-level variables `GeneratePage` reads, and the file system
(`files path` is the text of a readable file). -/
structure Env where
  config : Config
  modules : List Module
  headerHtml : Str
  sidebarHtml : Str
  footerHtml : Str
  baseHtml : Str
  buildUUID : Str
  buildTime : Str
  files : Str → Option Str

/-- The zero value of `PostVersion` (`var currentVersion PostVersion`). -/
def PostVersion.zero : PostVersion := ⟨[], [], [], []⟩

/-- The zero value of `Post` (`Post{}`). -/
def Post.zero : Post := ⟨[], [], [], ⟨[], []⟩, []⟩

/-- `append(slice, x)` on a Go slice of strings. -/
def sliceAppend (slice : Option (List Str)) (x : Str) : Option (List Str) :=
  some (slice.getD [] ++ [x])

/-- The elements of a Go slice. -/
def sliceList (slice : Option (List Str)) : List Str :=
  slice.getD []

/-- What the program does to the file system. -/
inductive FsOp where
  /-- `os.Mkdir(path, 0777)` -/
  | Mkdir (path : Str)
  /-- `CreateFile(filePath, fileContents)`: the directory is created when it is
  missing, then the file is written -/
  | CreateFile (filePath fileContents : Str)
deriving DecidableEq, Repr

/-! ## Locale-text resolution -/

/-- The `for` loop of `GetMultiLanguageText`. -/
def GetMultiLanguageText.loop (langId : Str) : List MultiLanguageText → Str
  | [] => []
  | e :: rest => if e.Id = langId then e.Text else GetMultiLanguageText.loop langId rest

/-- `GetMultiLanguageText`. -/
def GetMultiLanguageText (MLElems : List MultiLanguageText) (langId : Str) : Str :=
  match MLElems with
  | [] => []
  | first :: _ =>
    if first.Id = "_any".toList then first.Text
    else GetMultiLanguageText.loop langId MLElems

/-- The `for` loop of `ReadFileLang` over the found strings; `none` is the
run-time panic of indexing the `nil` result of `FindStringSubmatch`. -/
def resolveLoop (langId : Str) : List Str → Str → Option Str
  | [], fileContents => some fileContents
  | foundString :: rest, fileContents =>
    match FindStringSubmatch foundString with
    | none => none
    | some stringCaptGroups =>
      if stringCaptGroups.code = langId then
        resolveLoop langId rest (Go.ReplaceAll fileContents foundString stringCaptGroups.inner)
      else
        resolveLoop langId rest (Go.ReplaceAll fileContents foundString [])

/-- The body of `ReadFileLang` behind the file read (the spec's `resolveInline`). -/
def resolveInline (fileContents langId : Str) : Option Str :=
  resolveLoop langId (FindAllString fileContents) fileContents

/-- `ReadFile`: the text of the file, the empty string when it cannot be read. -/
def ReadFile (files : Str → Option Str) (filePath : Str) : Str :=
  (files filePath).getD []

/-- `ReadFileLang`. -/
def ReadFileLang (files : Str → Option Str) (filePath langId : Str) : Option Str :=
  resolveInline (ReadFile files filePath) langId

/-! ## Redirect pages -/

/-- `GetRedirectScript`. -/
def GetRedirectScript (target : Str) : Str :=
  "<meta http-equiv=\"refresh\" content=\"1; url=".toList ++ target
    ++ "\" /><script>window.location.replace(\"".toList ++ target
    ++ "\");</script><p>You are being redirected, if you still see this page after a white <a href=\"".toList
    ++ target ++ "\">click here</a>.</p>".toList

/-! ## Page assembly: `GeneratePage` -/

/-- `<?gen PAGE-LANG ?>`. -/
def tokPageLang : Str := "<?gen PAGE-LANG ?>".toList
/-- `<?gen PAGE-REPLACE-EXTENSION ?>`. -/
def tokPageReplaceExtension : Str := "<?gen PAGE-REPLACE-EXTENSION ?>".toList
/-- `<?gen PAGE-TITLE ?>`. -/
def tokPageTitle : Str := "<?gen PAGE-TITLE ?>".toList
/-- `<?gen PAGE-HEADER ?>`. -/
def tokPageHeader : Str := "<?gen PAGE-HEADER ?>".toList
/-- `<?gen PAGE-SIDEBAR ?>`. -/
def tokPageSidebar : Str := "<?gen PAGE-SIDEBAR ?>".toList
/-- `<?gen PAGE-MAIN ?>`. -/
def tokPageMain : Str := "<?gen PAGE-MAIN ?>".toList
/-- `<?gen PAGE-FOOTER ?>`. -/
def tokPageFooter : Str := "<?gen PAGE-FOOTER ?>".toList
/-- `<?gen BUILD-ID ?>`. -/
def tokBuildId : Str := "<?gen BUILD-ID ?>".toList
/-- `<?gen BUILD-TIME ?>`. -/
def tokBuildTime : Str := "<?gen BUILD-TIME ?>".toList
/-- `<?gen POST-TITLE ?>`. -/
def tokPostTitle : Str := "<?gen POST-TITLE ?>".toList
/-- `<?gen POST-CONTENTS ?>`. -/
def tokPostContents : Str := "<?gen POST-CONTENTS ?>".toList
/-- `<?gen WEB-ROOT ?>`. -/
def tokWebRoot : Str := "<?gen WEB-ROOT ?>".toList

/-- The initial value of `oldStrings`. -/
def oldStringsNormal : List Str :=
  [tokPageLang, tokPageReplaceExtension, tokPageTitle, tokPageHeader, tokPageSidebar,
   tokPageMain, tokPageFooter, tokBuildId, tokBuildTime]

/-- The value of `oldStrings` the substitution loop runs over: for a `post`
route the two post tokens are appended. -/
def oldStringsOf (route : Route) : List Str :=
  if route.Type_ = "post".toList then oldStringsNormal ++ [tokPostTitle, tokPostContents]
  else oldStringsNormal

/-- A title followed by ` `, the separator, ` ` and the site title. -/
def withSiteTitle (config : Config) (title : Str) : Str :=
  title ++ " ".toList ++ config.SiteTitleSeparator ++ " ".toList ++ config.SiteTitle

/-- The loop over `post.Versions` of a `post` route: every version of the
locale's language overwrites `currentVersion` and `pageTitle`. -/
def versionLoop (config : Config) (locale : Locale) :
    List PostVersion → PostVersion × Str → PostVersion × Str
  | [], st => st
  | version :: rest, (currentVersion, pageTitle) =>
    if version.LangId = locale.Id then
      versionLoop config locale rest (version, withSiteTitle config version.Title)
    else versionLoop config locale rest (currentVersion, pageTitle)

/-- `currentVersion` and `pageTitle` when the substitution loop starts. -/
def versionAndTitle (env : Env) (route : Route) (post : Post) (locale : Locale) :
    PostVersion × Str :=
  let pageTitle := withSiteTitle env.config (GetMultiLanguageText route.Title locale.Id)
  if route.Type_ = "post".toList then
    versionLoop env.config locale post.Versions (PostVersion.zero, pageTitle)
  else (PostVersion.zero, pageTitle)

/-- The script tag of one script of a module. -/
def scriptTag (buildUUID script : Str) : Str :=
  "<script src=\"".toList ++ script ++ "?bId=".toList ++ buildUUID
    ++ "\" type=\"text/javascript\"></script>".toList

/-- The loop over `module.Scripts`, on `moduleJs` and `mainScripts`. -/
def scriptLoop (buildUUID : Str) :
    List Str → Str × Option (List Str) → Str × Option (List Str)
  | [], st => st
  | script :: rest, (moduleJs, mainScripts) =>
    scriptLoop buildUUID rest (moduleJs ++ scriptTag buildUUID script, sliceAppend mainScripts script)

/-- The loop over `modules` for one entry of the route's structure, on
`moduleHtml`, `moduleJs` and `mainScripts`. -/
def moduleLoop (env : Env) (locale : Locale) (routeModule : PageStructure) :
    List Module → Str × Str × Option (List Str) → Option (Str × Str × Option (List Str))
  | [], st => some st
  | module :: rest, (moduleHtml, moduleJs, mainScripts) =>
    if module.Id = routeModule.ModuleId then
      let moduleSrc := Go.Join [env.config.DataPath, "/modules/".toList, module.Src]
      match ReadFileLang env.files moduleSrc locale.Id with
      | none => none
      | some html =>
        let (js, scripts) := scriptLoop env.buildUUID module.Scripts (moduleJs, mainScripts)
        moduleLoop env locale routeModule rest (html, js, scripts)
    else moduleLoop env locale routeModule rest (moduleHtml, moduleJs, mainScripts)

/-- The loop over `route.Structure` (case `<?gen PAGE-MAIN ?>`), on `newString`,
`mainHtml` and `mainScripts`. -/
def structureLoop (env : Env) (locale : Locale) :
    List PageStructure → Str × Str × Option (List Str) → Option (Str × Str × Option (List Str))
  | [], st => some st
  | routeModule :: rest, (newString, mainHtml, mainScripts) =>
    match moduleLoop env locale routeModule env.modules ([], [], mainScripts) with
    | none => none
    | some (moduleHtml, moduleJs, scripts) =>
      structureLoop env locale rest
        (newString ++ (moduleHtml ++ moduleJs), mainHtml ++ moduleHtml, scripts)

/-- The `switch` of the substitution loop: `newString` for one `oldString`, and
`mainHtml` and `mainScripts` behind it. -/
def newStringFor (env : Env) (route : Route) (locale : Locale) (localeFolder pageTitle : Str)
    (currentVersion : PostVersion) (oldString mainHtml : Str) (mainScripts : Option (List Str)) :
    Option (Str × Str × Option (List Str)) :=
  if oldString = tokPageLang then some (localeFolder, mainHtml, mainScripts)
  else if oldString = tokPageReplaceExtension then
    some (Go.FormatBool env.config.ReplaceFileExtension, mainHtml, mainScripts)
  else if oldString = tokPageTitle then some (pageTitle, mainHtml, mainScripts)
  else if oldString = tokPageHeader then some (env.headerHtml, mainHtml, mainScripts)
  else if oldString = tokPageSidebar then some (env.sidebarHtml, mainHtml, mainScripts)
  else if oldString = tokPageMain then
    structureLoop env locale route.Structure ([], mainHtml, mainScripts)
  else if oldString = tokPostTitle then some (currentVersion.Title, mainHtml, mainScripts)
  else if oldString = tokPostContents then
    let postSrc := Go.Join [env.config.DataPath, "/posts/".toList, currentVersion.File]
    some (ReadFile env.files postSrc, mainHtml, mainScripts)
  else if oldString = tokPageFooter then some (env.footerHtml, mainHtml, mainScripts)
  else if oldString = tokBuildId then some (env.buildUUID, mainHtml, mainScripts)
  else if oldString = tokBuildTime then some (env.buildTime, mainHtml, mainScripts)
  else some ([], mainHtml, mainScripts)

/-- The substitution loop over `oldStrings`, on `pageHtml`, `mainHtml` and
`mainScripts`. -/
def substLoop (env : Env) (route : Route) (locale : Locale) (localeFolder pageTitle : Str)
    (currentVersion : PostVersion) :
    List Str → Str × Str × Option (List Str) → Option (Str × Str × Option (List Str))
  | [], st => some st
  | oldString :: rest, (pageHtml, mainHtml, mainScripts) =>
    match newStringFor env route locale localeFolder pageTitle currentVersion oldString
        mainHtml mainScripts with
    | none => none
    | some (newString, html, scripts) =>
      substLoop env route locale localeFolder pageTitle currentVersion rest
        (Go.ReplaceAll pageHtml oldString newString, html, scripts)

/-- `json.Marshal(pageRouteObj)`; it has no error for a record of strings. -/
def jsonMarshal (page : ExportedPage) : Str :=
  ['\x7b'] ++ "\"title\":".toList ++ Go.jsonString page.Title
    ++ ",\"html\":".toList ++ Go.jsonString page.Html
    ++ ",\"scripts\":".toList ++ Go.jsonStrings page.Scripts ++ ['\x7d']

/-- What `GeneratePage` has computed when it starts to write. -/
structure Assembled where
  localeFolder : Str
  currentVersion : PostVersion
  /-- `pageHtml` behind the `WEB-ROOT` pass -/
  pageHtml : Str
  newFileName : Str
  pageRouteObj : ExportedPage
  pageRouteJson : Str
deriving DecidableEq, Repr

/-- `GeneratePage` up to its writes; `none` is a run-time panic. -/
def assemble (env : Env) (route : Route) (post : Post) (locale : Locale) : Option Assembled :=
  let localePath := locale.Path
  let localeFolder := Go.ReplaceAll localePath ['/'] []
  let (currentVersion, pageTitle) := versionAndTitle env route post locale
  match substLoop env route locale localeFolder pageTitle currentVersion (oldStringsOf route)
      (env.baseHtml, [], none) with
  | none => none
  | some (pageHtml, mainHtml, mainScripts) =>
    let newFileName :=
      if route.Path = ['/'] then "index".toList else Go.TrimPrefix route.Path ['/']
    let pageRouteObj : ExportedPage :=
      { Html := Go.ReplaceAll mainHtml tokWebRoot (env.config.WebRoot ++ localePath)
        Title := pageTitle
        Scripts := mainScripts.map (fun l => l.map (fun script => script ++ "?bId=".toList ++ env.buildUUID)) }
    some
      { localeFolder := localeFolder
        currentVersion := currentVersion
        pageHtml := Go.ReplaceAll pageHtml tokWebRoot (env.config.WebRoot ++ localePath)
        newFileName := newFileName
        pageRouteObj := pageRouteObj
        pageRouteJson := jsonMarshal pageRouteObj }

/-- The writes of an alias of a `normal` route. -/
def aliasWrites (env : Env) (a : Assembled) (aliasPath : Str) : List FsOp :=
  [FsOp.CreateFile (Go.Join [env.config.BuildPath, a.localeFolder,
      Go.TrimPrefix aliasPath ['/'] ++ ".html".toList]) a.pageHtml,
   FsOp.CreateFile (Go.Join [env.config.BuildPath, a.localeFolder,
      Go.TrimPrefix aliasPath ['/'] ++ ".json".toList]) a.pageRouteJson]

/-- The redirect stubs of a `post` route: one for every version of another
language than the locale's. -/
def stubWrites (env : Env) (locale : Locale) (a : Assembled) : List PostVersion → List FsOp
  | [] => []
  | version :: rest =>
    if version.LangId ≠ locale.Id then
      FsOp.CreateFile (Go.Join [env.config.BuildPath, a.localeFolder, "post".toList,
          version.Permalink ++ ".html".toList])
        (GetRedirectScript (a.currentVersion.Permalink ++ ".html".toList))
        :: stubWrites env locale a rest
    else stubWrites env locale a rest

/-- The final `switch route.Type` of `GeneratePage`. -/
def pageWrites (env : Env) (route : Route) (post : Post) (locale : Locale) (a : Assembled) :
    List FsOp :=
  if route.Type_ = "normal".toList then
    [FsOp.CreateFile (Go.Join [env.config.BuildPath, a.localeFolder,
        a.newFileName ++ ".html".toList]) a.pageHtml,
     FsOp.CreateFile (Go.Join [env.config.BuildPath, a.localeFolder,
        a.newFileName ++ ".json".toList]) a.pageRouteJson]
      ++ route.Aliases.flatMap (aliasWrites env a)
  else if route.Type_ = "post".toList then
    [FsOp.CreateFile (Go.Join [env.config.BuildPath, a.localeFolder, "post".toList,
        a.currentVersion.Permalink ++ ".html".toList]) a.pageHtml,
     FsOp.CreateFile (Go.Join [env.config.BuildPath, a.localeFolder, "post".toList,
        a.currentVersion.Permalink ++ ".json".toList]) a.pageRouteJson]
      ++ stubWrites env locale a post.Versions
  else []

/-- `GeneratePage`: what it does to the file system, in order; `none` is a
run-time panic. -/
def GeneratePage (env : Env) (route : Route) (post : Post) (locale : Locale) :
    Option (List FsOp) :=
  let localeFolder := Go.ReplaceAll locale.Path ['/'] []
  let mkdir :=
    if localeFolder ≠ [] then [FsOp.Mkdir (Go.Join [env.config.BuildPath, localeFolder])] else []
  match assemble env route post locale with
  | none => none
  | some a => some (mkdir ++ pageWrites env route post locale a)

/-! ## Reference definitions: what the specification says, and an example site -/

/-- A complete marker region occurs in the text: a start marker with a code of
two lowercase letters, followed later by an end marker. -/
def HasRegion (s : Str) : Prop :=
  ∃ (a b d : Str) (c1 c2 : Char), c1.isLower = true ∧ c2.isLower = true ∧
    s = a ++ (startOpen ++ [c1, c2] ++ startClose) ++ b ++ endMarker ++ d

/-- The specification's `resolveList`: the empty string for an empty list; the
text of the first entry when its id is `_any`; otherwise the text of the first
entry of the language asked for, the empty string when there is none. -/
def resolveList (texts : List MultiLanguageText) (langId : Str) : Str :=
  match texts with
  | [] => []
  | first :: _ =>
    if first.Id = "_any".toList then first.Text
    else
      match texts.find? (fun e => e.Id = langId) with
      | some e => e.Text
      | none => []

/-- The text of a region: start marker with its code, inner text, end marker. -/
def region (code inner : Str) : Str :=
  startOpen ++ code ++ startClose ++ inner ++ endMarker

/-- A region together with the plain text that follows it. -/
structure Segment where
  code : Str
  inner : Str
  plain : Str
deriving DecidableEq, Repr

/-- The source text of a segment. -/
def Segment.source (g : Segment) : Str :=
  region g.code g.inner ++ g.plain

/-- What the spec makes of a segment: the inner text when the code is the
language asked for, nothing otherwise; the plain text stays. -/
def Segment.resolved (langId : Str) (g : Segment) : Str :=
  (if g.code = langId then g.inner else []) ++ g.plain

/-- The source `t0 R1 t1 ... Rn tn`. -/
def segSource (t0 : Str) (segs : List Segment) : Str :=
  t0 ++ segs.flatMap Segment.source

/-- The text `t0 y1 t1 ... yn tn`. -/
def segResolved (langId t0 : Str) (segs : List Segment) : Str :=
  t0 ++ segs.flatMap (Segment.resolved langId)

/-- The code is two lowercase letters, and neither the inner text nor the
plain text holds the character `<`. -/
def Segment.Plain (g : Segment) : Prop :=
  (∃ c1 c2 : Char, g.code = [c1, c2] ∧ c1.isLower = true ∧ c2.isLower = true) ∧
    '<' ∉ g.inner ∧ '<' ∉ g.plain

/-- A segment in a text under resolution: resolved when its region is among
the processed ones, as in the source otherwise. -/
def piece (langId : Str) (done : Str → Bool) (g : Segment) : Str :=
  if done (region g.code g.inner) then g.resolved langId else g.source

/-- The source path of a module's file. -/
def moduleSrc (env : Env) (m : Module) : Str :=
  Go.Join [env.config.DataPath, "/modules/".toList, m.Src]

/-- The locale-resolved text of a module's file (`ReadFileLang` returns it,
see `readFileLang_moduleText`). -/
def moduleText (env : Env) (locale : Locale) (m : Module) : Str :=
  (ReadFileLang env.files (moduleSrc env m) locale.Id).getD []

/-- The modules an entry of a route's structure refers to: those of its id. -/
def referenced (env : Env) (e : PageStructure) : List Module :=
  env.modules.filter (fun m => m.Id = e.ModuleId)

/-- The html an entry contributes: that of the last module of its id. -/
def entryHtml (env : Env) (locale : Locale) (e : PageStructure) : Str :=
  match (referenced env e).getLast? with
  | none => []
  | some m => moduleText env locale m

/-- The script paths an entry contributes: those of all modules of its id. -/
def entryScripts (env : Env) (e : PageStructure) : List Str :=
  (referenced env e).flatMap (fun m => m.Scripts)

/-- The script tags an entry contributes. -/
def entryJs (env : Env) (e : PageStructure) : Str :=
  (entryScripts env e).flatMap (scriptTag env.buildUUID)

/-- `append` of several elements, one after the other. -/
def sliceAppends (slice : Option (List Str)) (l : List Str) : Option (List Str) :=
  l.foldl sliceAppend slice

/-- The value of `<?gen PAGE-MAIN ?>`: html and script tags of every entry. -/
def mainValue (env : Env) (route : Route) (locale : Locale) : Str :=
  route.Structure.flatMap (fun e => entryHtml env locale e ++ entryJs env e)

/-- The final `mainHtml`: the html of every entry. -/
def mainHtmlOf (env : Env) (route : Route) (locale : Locale) : Str :=
  route.Structure.flatMap (entryHtml env locale)

/-- The final `mainScripts`: the script paths of every entry. -/
def mainScriptsOf (env : Env) (route : Route) : List Str :=
  route.Structure.flatMap (entryScripts env)

/-- The `newString` of a pass of the substitution loop. -/
def tokenValue (env : Env) (route : Route) (locale : Locale) (localeFolder pageTitle : Str)
    (currentVersion : PostVersion) (oldString : Str) : Str :=
  if oldString = tokPageLang then localeFolder
  else if oldString = tokPageReplaceExtension then Go.FormatBool env.config.ReplaceFileExtension
  else if oldString = tokPageTitle then pageTitle
  else if oldString = tokPageHeader then env.headerHtml
  else if oldString = tokPageSidebar then env.sidebarHtml
  else if oldString = tokPageMain then mainValue env route locale
  else if oldString = tokPostTitle then currentVersion.Title
  else if oldString = tokPostContents then
    ReadFile env.files (Go.Join [env.config.DataPath, "/posts/".toList, currentVersion.File])
  else if oldString = tokPageFooter then env.footerHtml
  else if oldString = tokBuildId then env.buildUUID
  else if oldString = tokBuildTime then env.buildTime
  else []

/-- The html of a page before the `WEB-ROOT` pass: the passes of the
substitution loop over the base. -/
def substituted (env : Env) (route : Route) (post : Post) (locale : Locale) : Str :=
  (oldStringsOf route).foldl (fun s old => Go.ReplaceAll s old
      (tokenValue env route locale (Go.ReplaceAll locale.Path ['/'] [])
        (versionAndTitle env route post locale).2 (versionAndTitle env route post locale).1 old))
    env.baseHtml

/-- The exported page of `GeneratePage`. -/
def exportedPage (env : Env) (route : Route) (post : Post) (locale : Locale) : ExportedPage :=
  { Title := (versionAndTitle env route post locale).2
    Html := Go.ReplaceAll (mainHtmlOf env route locale) tokWebRoot
      (env.config.WebRoot ++ locale.Path)
    Scripts := (sliceAppends none (mainScriptsOf env route)).map
      (fun l => l.map (fun script => script ++ "?bId=".toList ++ env.buildUUID)) }

/-- The last version of a post in the locale's language. -/
def lastVersion (locale : Locale) (versions : List PostVersion) : Option PostVersion :=
  (versions.filter (fun v => v.LangId = locale.Id)).getLast?

/-- What looking up the first module of the entry's id gives: its
locale-resolved text, the tags of its scripts, its script paths appended;
nothing, and no error, when no module has the id. -/
def firstMatch (env : Env) (locale : Locale) (e : PageStructure) (slice : Option (List Str)) :
    Option (Str × Str × Option (List Str)) :=
  match env.modules.find? (fun m => m.Id = e.ModuleId) with
  | none => some ([], [], slice)
  | some m =>
    match ReadFileLang env.files (Go.Join [env.config.DataPath, "/modules/".toList, m.Src])
        locale.Id with
    | none => none
    | some html =>
      some (html, m.Scripts.flatMap (scriptTag env.buildUUID), sliceAppends slice m.Scripts)

/-- The title of a page before the separator: the title of the last version
of the post in the locale's language for a `post` route with such a version,
the route's title resolved for the locale otherwise. -/
def titleText (route : Route) (post : Post) (locale : Locale) : Str :=
  if route.Type_ = "post".toList then
    match lastVersion locale post.Versions with
    | some v => v.Title
    | none => GetMultiLanguageText route.Title locale.Id
  else GetMultiLanguageText route.Title locale.Id

/-- An example site: two modules, a base template with a title and a body. -/
def exEnv : Env :=
  { config :=
      { DataPath := "data".toList, BuildPath := "build".toList, WebRoot := "/root".toList,
        SiteTitle := "Site".toList, SiteTitleSeparator := "|".toList,
        ReplaceFileExtension := true }
    modules :=
      [⟨"m".toList, "a.html".toList, [], ["a.js".toList]⟩,
       ⟨"n".toList, "b.html".toList, [], ["b.js".toList]⟩]
    headerHtml := "<h1>H</h1>".toList
    sidebarHtml := "S".toList
    footerHtml := "F".toList
    baseHtml := "<title><?gen PAGE-TITLE ?></title><?gen PAGE-MAIN ?>".toList
    buildUUID := "AB".toList
    buildTime := "now".toList
    files := fun p =>
      if p = "data/modules/a.html".toList then
        some "A<? START-LANG [it] ?>ciao<? END-LANG ?>".toList
      else if p = "data/modules/b.html".toList then some "B<?gen WEB-ROOT ?>".toList
      else none }

/-- The example site with its second module under the id of the first. -/
def exEnvTwice : Env :=
  { exEnv with
    modules :=
      [⟨"m".toList, "a.html".toList, [], ["a.js".toList]⟩,
       ⟨"m".toList, "b.html".toList, [], ["b.js".toList]⟩] }

/-- A route over the two modules of the example site. -/
def exRoute : Route :=
  { Id := "home".toList, Path := "/".toList, Aliases := ["/home".toList],
    Structure := [⟨"m".toList, []⟩, ⟨"n".toList, []⟩, ⟨"none".toList, []⟩],
    Title := [⟨"_any".toList, "Home".toList⟩], Type_ := "normal".toList, Auth := [] }

/-- A route of type `post`. -/
def exPostRoute : Route :=
  { exRoute with Id := "post".toList, Path := "/post".toList, Aliases := [],
                 Type_ := "post".toList }

/-- A post with an English and an Italian version. -/
def exPost : Post :=
  { Id := "p".toList, CreatedDate := [], LastModifiedDate := [], Media := ⟨[], []⟩,
    Versions :=
      [⟨"en".toList, "p-en".toList, "p-en.html".toList, "Hello".toList⟩,
       ⟨"it".toList, "p-it".toList, "p-it.html".toList, "Ciao".toList⟩] }

/-- The Italian locale. -/
def exIt : Locale := ⟨"it".toList, "/it".toList⟩

/-- The English locale, at the root. -/
def exEn : Locale := ⟨"en".toList, []⟩

/-- The entry of a route's structure that names the module `m`. -/
def exEntry : PageStructure := ⟨"m".toList, []⟩

/-- The specification's reading of `resolveInline`: the regions are taken from
the left, each start marker with the nearest end marker behind it; a region of
the language asked for is replaced by its inner text, another one is removed,
and the text outside the regions stays as it is. -/
def resolveRegionsLoop (langId : Str) : Nat → Str → Str
  | 0, s => s
  | fuel + 1, s =>
    match findMatch s with
    | none => s
    | some m =>
      m.before ++ (if m.code = langId then m.inner else [])
        ++ resolveRegionsLoop langId fuel m.after

/-- The region-wise resolution of a text. -/
def resolveRegions (s langId : Str) : Str :=
  resolveRegionsLoop langId s.length s

/-- A source with three well-formed regions, `en`, `en` and `fr`; the text
around the first two is `<? START-`, `LANG [fr] ?>Z<? END-` and `LANG ?>`. -/
def exFragments : Str :=
  ("<? START-" ++ "<? START-LANG [en] ?>q<? END-LANG ?>" ++ "LANG [fr] ?>Z<? END-"
    ++ "<? START-LANG [en] ?>q<? END-LANG ?>" ++ "LANG ?>"
    ++ "<? START-LANG [fr] ?>Z<? END-LANG ?>").toList

/-- Plain text of a template: no `<` in it is directly followed by `?`, and
none stands last. -/
def inert : Str → Bool
  | [] => true
  | [c] => c != '<'
  | c :: d :: s => !(c == '<' && d == '?') && inert (d :: s)

/-- A placeholder-shaped token: `<?`, then a body without `<` and `>`, then `>`. -/
def shaped (t : Str) : Bool :=
  match t with
  | '<' :: '?' :: r =>
    r.getLast? == some '>' && !(r.dropLast.contains '<') && !(r.dropLast.contains '>')
  | _ => false

/-- A piece of a template. -/
inductive Atom where
  | text (s : Str)
  | token (t : Str)
deriving DecidableEq, Repr

/-- The characters of a piece. -/
def Atom.str : Atom → Str
  | Atom.text s => s
  | Atom.token t => t

/-- The template made of the pieces. -/
def flatten (atoms : List Atom) : Str :=
  atoms.flatMap Atom.str

/-- A piece is in order: inert text, or a shaped token that is not excluded. -/
def Atom.ok (excluded : List Str) : Atom → Bool
  | Atom.text s => inert s
  | Atom.token t => shaped t && !(excluded.contains t)

/-- The text is made of inert text and shaped tokens, none of them excluded. -/
def Templated (excluded : List Str) (s : Str) : Prop :=
  ∃ atoms : List Atom, s = flatten atoms ∧ ∀ a ∈ atoms, a.ok excluded = true

/-- The passes are in order: the value of each is templated and holds neither
the token of its pass nor one of an earlier pass. -/
def PassesOk : List Str → List (Str × Str) → Prop
  | _, [] => True
  | excluded, (old, new) :: rest =>
    shaped old = true ∧ Templated (old :: excluded) new ∧ PassesOk (old :: excluded) rest

/-- The value `GeneratePage` substitutes for a token. -/
def passValue (env : Env) (route : Route) (post : Post) (locale : Locale) (oldString : Str) :
    Str :=
  match newStringFor env route locale (Go.ReplaceAll locale.Path ['/'] [])
      (versionAndTitle env route post locale).2 (versionAndTitle env route post locale).1
      oldString [] none with
  | some (newString, _, _) => newString
  | none => []

/-- The passes of `GeneratePage` over the base template: every token of
`oldStrings` with its value, in order, then `<?gen WEB-ROOT ?>` with the web
root followed by the locale's path. -/
def passesOf (env : Env) (route : Route) (post : Post) (locale : Locale) : List (Str × Str) :=
  (oldStringsOf route).map (fun old => (old, passValue env route post locale old))
    ++ [(tokWebRoot, env.config.WebRoot ++ locale.Path)]

/-- The example site with a header that holds a token of an earlier pass, and a
base template that is the header token. -/
def exEnvHeader : Env :=
  { exEnv with
    headerHtml := "<h1><?gen PAGE-LANG ?></h1>".toList
    baseHtml := "<?gen PAGE-HEADER ?>".toList }

/-- What `GeneratePage` has computed when it starts to write, in closed form. -/
def assembled (env : Env) (route : Route) (post : Post) (locale : Locale) : Assembled :=
  { localeFolder := Go.ReplaceAll locale.Path ['/'] []
    currentVersion := (versionAndTitle env route post locale).1
    pageHtml := Go.ReplaceAll (substituted env route post locale) tokWebRoot
      (env.config.WebRoot ++ locale.Path)
    newFileName :=
      if route.Path = ['/'] then "index".toList else Go.TrimPrefix route.Path ['/']
    pageRouteObj := exportedPage env route post locale
    pageRouteJson := jsonMarshal (exportedPage env route post locale) }

/-- The text a file holds after the operations, every write having gone
through: that of the last `CreateFile` at its path. -/
def lastWrite (filePath : Str) : List FsOp → Option Str
  | [] => none
  | FsOp.Mkdir _ :: rest => lastWrite filePath rest
  | FsOp.CreateFile p c :: rest =>
    match lastWrite filePath rest with
    | some later => some later
    | none => if p = filePath then some c else none

/-- The example route without a module. -/
def exRouteEmpty : Route :=
  { exRoute with Structure := [] }

/-- A post whose English and Italian versions have the same permalink. -/
def exPostSame : Post :=
  { exPost with
    Versions :=
      [⟨"en".toList, "p".toList, "p-en.html".toList, "Hello".toList⟩,
       ⟨"it".toList, "p".toList, "p-it.html".toList, "Ciao".toList⟩] }

/-- A locale the example post has no version for. -/
def exFr : Locale := ⟨"fr".toList, "/fr".toList⟩

/-! ## Theorems -/

theorem cut_sound (pat : Str) : ∀ (s a b : Str), Go.Cut pat s = some (a, b) → s = a ++ pat ++ b := by
  intro s
  induction s with
  | nil =>
    intro a b h
    simp only [Go.Cut] at h
    split at h
    · rename_i hp
      simp only [Option.some.injEq, Prod.mk.injEq] at h
      obtain ⟨rfl, rfl⟩ := h
      simp [hp]
    · simp at h
  | cons c s ih =>
    intro a b h
    simp only [Go.Cut] at h
    split at h
    · rename_i hp
      simp only [Option.some.injEq, Prod.mk.injEq] at h
      obtain ⟨rfl, rfl⟩ := h
      rw [List.isPrefixOf_iff_prefix] at hp
      obtain ⟨t, ht⟩ := hp
      rw [← ht]
      simp
    · cases hc : Go.Cut pat s with
      | none => simp [hc] at h
      | some p =>
        obtain ⟨a1, b1⟩ := p
        simp only [hc, Option.some.injEq, Prod.mk.injEq] at h
        obtain ⟨rfl, rfl⟩ := h
        have := ih a1 b1 hc
        simp [this]

theorem cut_here (pat rest : Str) (hp : pat ≠ []) :
    Go.Cut pat (pat ++ rest) = some ([], rest) := by
  cases pat with
  | nil => exact absurd rfl hp
  | cons c p =>
    have h : (c :: p).isPrefixOf (c :: (p ++ rest)) = true := by
      rw [List.isPrefixOf_iff_prefix]
      exact ⟨rest, rfl⟩
    simp only [List.cons_append, Go.Cut, h, if_true]
    simp

theorem cut_step (pat rest : Str) (d : Char) (h : pat.isPrefixOf (d :: rest) = false) :
    Go.Cut pat (d :: rest) = (Go.Cut pat rest).map (fun p => (d :: p.1, p.2)) := by
  simp only [Go.Cut, h]
  cases Go.Cut pat rest with
  | none => simp
  | some p => simp

theorem cut_skip (c : Char) (p w rest : Str) (hw : c ∉ w) :
    Go.Cut (c :: p) (w ++ rest) = (Go.Cut (c :: p) rest).map (fun q => (w ++ q.1, q.2)) := by
  induction w with
  | nil => simp
  | cons d w ih =>
    have hd : d ≠ c := fun h => hw (by simp [h])
    have hw2 : c ∉ w := fun h => hw (List.mem_cons_of_mem _ h)
    have hpre : (c :: p).isPrefixOf (d :: (w ++ rest)) = false := by
      simp [List.isPrefixOf, Ne.symm hd]
    rw [List.cons_append, cut_step _ _ _ hpre, ih hw2]
    cases Go.Cut (c :: p) rest with
    | none => simp
    | some q => simp

theorem cut_length (pat : Str) (hp : pat ≠ []) (s a b : Str) (h : Go.Cut pat s = some (a, b)) :
    b.length < s.length := by
  have := cut_sound pat s a b h
  have hl : 0 < pat.length := List.length_pos.mpr hp
  rw [this]
  simp
  omega

theorem cut_cons (pat s : Str) (d : Char) :
    Go.Cut pat (d :: s) =
      if pat.isPrefixOf (d :: s) then some ([], (d :: s).drop pat.length)
      else
        match Go.Cut pat s with
        | none => none
        | some (a, b) => some (d :: a, b) := by
  rw [Go.Cut]

theorem cut_isSome (pat : Str) : ∀ (a b : Str), (Go.Cut pat (a ++ pat ++ b)).isSome = true := by
  intro a
  induction a with
  | nil =>
    intro b
    by_cases hp : pat = []
    · subst hp
      cases b <;> simp [Go.Cut, List.isPrefixOf]
    · rw [List.nil_append, cut_here pat b hp]
      rfl
  | cons d a ih =>
    intro b
    have hi := ih b
    rw [List.cons_append, List.cons_append, cut_cons]
    split
    · rfl
    · cases hc : Go.Cut pat (a ++ pat ++ b) with
      | none =>
        rw [hc] at hi
        simp at hi
      | some q => rfl

theorem cut_none (pat s : Str) (h : Go.Cut pat s = none) (a b : Str) : s ≠ a ++ pat ++ b := by
  intro hs
  have := cut_isSome pat a b
  rw [← hs, h] at this
  simp at this

theorem replaceLoop_fuel (old new : Str) (ho : old ≠ []) :
    ∀ (n : Nat) (s : Str), s.length ≤ n →
      Go.replaceLoop old new n s =
        match Go.Cut old s with
        | none => s
        | some (a, b) => a ++ new ++ Go.replaceLoop old new b.length b := by
  intro n
  induction n using Nat.strong_induction_on with
  | _ n ih =>
    intro s hs
    cases n with
    | zero =>
      have : s = [] := List.length_eq_zero.mp (Nat.le_zero.mp hs)
      subst this
      simp [Go.replaceLoop, Go.Cut, ho]
    | succ n =>
      simp only [Go.replaceLoop]
      cases hc : Go.Cut old s with
      | none => rfl
      | some q =>
        obtain ⟨a, b⟩ := q
        have hb := cut_length old ho s a b hc
        simp only
        have e1 := ih n (Nat.lt_succ_self n) b (by omega)
        have e2 := ih b.length (by omega) b (Nat.le_refl _)
        rw [e1, ← e2]

theorem replaceLoop_self (old : Str) :
    ∀ (n : Nat) (s : Str), Go.replaceLoop old old n s = s := by
  intro n
  induction n with
  | zero => intro s; rfl
  | succ n ih =>
    intro s
    simp only [Go.replaceLoop]
    cases hc : Go.Cut old s with
    | none => rfl
    | some q =>
      obtain ⟨a, b⟩ := q
      simp only [ih b]
      exact (cut_sound old s a b hc).symm

theorem replaceAll_eq_loop (s old new : Str) (ho : old ≠ []) :
    Go.ReplaceAll s old new = Go.replaceLoop old new s.length s := by
  unfold Go.ReplaceAll
  by_cases h : old = new
  · subst h
    simp [replaceLoop_self old]
  · simp [h, ho]

/-- The unfolding of `ReplaceAll` at the first occurrence of a non-empty `old`. -/
theorem replaceAll_unfold (s old new : Str) (ho : old ≠ []) :
    Go.ReplaceAll s old new =
      match Go.Cut old s with
      | none => s
      | some (a, b) => a ++ new ++ Go.ReplaceAll b old new := by
  rw [replaceAll_eq_loop s old new ho, replaceLoop_fuel old new ho s.length s (Nat.le_refl _)]
  cases hc : Go.Cut old s with
  | none => rfl
  | some q =>
    obtain ⟨a, b⟩ := q
    simp only
    rw [replaceAll_eq_loop b old new ho]

theorem replaceAll_here (old new rest : Str) (ho : old ≠ []) :
    Go.ReplaceAll (old ++ rest) old new = new ++ Go.ReplaceAll rest old new := by
  rw [replaceAll_unfold _ old new ho, cut_here old rest ho]
  simp

theorem replaceAll_step (old new rest : Str) (d : Char) (ho : old ≠ [])
    (h : old.isPrefixOf (d :: rest) = false) :
    Go.ReplaceAll (d :: rest) old new = d :: Go.ReplaceAll rest old new := by
  rw [replaceAll_unfold _ old new ho, replaceAll_unfold rest old new ho, cut_step _ _ _ h]
  cases Go.Cut old rest with
  | none => simp
  | some q => simp

theorem replaceAll_skip (c : Char) (p new w rest : Str) (hw : c ∉ w) :
    Go.ReplaceAll (w ++ rest) (c :: p) new = w ++ Go.ReplaceAll rest (c :: p) new := by
  rw [replaceAll_unfold _ (c :: p) new (by simp), replaceAll_unfold rest (c :: p) new (by simp),
    cut_skip c p w rest hw]
  cases Go.Cut (c :: p) rest with
  | none => simp
  | some q => simp

theorem replaceAll_none (c : Char) (p new w : Str) (hw : c ∉ w) :
    Go.ReplaceAll w (c :: p) new = w := by
  have := replaceAll_skip c p new w [] hw
  rw [List.append_nil] at this
  rw [this, replaceAll_unfold [] (c :: p) new (by simp)]
  simp [Go.Cut]

theorem stripLit_append (lit r : Str) : stripLit lit (lit ++ r) = some r := by
  have h : lit.isPrefixOf (lit ++ r) = true := by
    rw [List.isPrefixOf_iff_prefix]
    exact ⟨r, rfl⟩
  simp [stripLit, h]

theorem stripLit_sound (lit s r : Str) (h : stripLit lit s = some r) : s = lit ++ r := by
  unfold stripLit at h
  split at h
  · rename_i hp
    rw [List.isPrefixOf_iff_prefix] at hp
    obtain ⟨t, ht⟩ := hp
    simp only [Option.some.injEq] at h
    rw [← h, ← ht]
    simp
  · simp at h

theorem matchHere_sound (s code inner after : Str) (h : matchHere s = some (code, inner, after)) :
    ∃ c1 c2 : Char, code = [c1, c2] ∧ c1.isLower = true ∧ c2.isLower = true ∧
      Go.Cut endMarker (s.drop 21) = some (inner, after) ∧
      s = startOpen ++ code ++ startClose ++ (s.drop 21) := by
  unfold matchHere at h
  split at h
  · rename_i c1 c2 r hs
    split at h
    · rename_i hl
      split at h
      · rename_i r2 hr
        split at h
        · rename_i i2 a2 hc
          simp only [Option.some.injEq, Prod.mk.injEq] at h
          obtain ⟨rfl, rfl, rfl⟩ := h
          have e1 := stripLit_sound _ _ _ hs
          have e2 := stripLit_sound _ _ _ hr
          simp only [Bool.and_eq_true] at hl
          subst e2
          subst e1
          refine ⟨c1, c2, rfl, hl.1, hl.2, ?_, ?_⟩
          · simpa [startOpen, startClose] using hc
          · simp [startOpen, startClose]
        · simp at h
      · simp at h
    · simp at h
  · simp at h

theorem matchHere_region (c1 c2 : Char) (r inner after : Str) (h1 : c1.isLower = true)
    (h2 : c2.isLower = true) (hc : Go.Cut endMarker r = some (inner, after)) :
    matchHere (startOpen ++ [c1, c2] ++ startClose ++ r) = some ([c1, c2], inner, after) := by
  unfold matchHere
  have e : startOpen ++ [c1, c2] ++ startClose ++ r = startOpen ++ (c1 :: c2 :: (startClose ++ r)) := by
    simp
  rw [e, stripLit_append]
  simp only [h1, h2, Bool.and_self, if_true, stripLit_append, hc]

theorem matchHere_head (d : Char) (r : Str) (hd : d ≠ '<') : matchHere (d :: r) = none := by
  have h : stripLit startOpen (d :: r) = none := by
    simp [stripLit, startOpen, List.isPrefixOf, Ne.symm hd]
  simp [matchHere, h]

theorem findMatch_skip (w r : Str) (hw : '<' ∉ w) :
    findMatch (w ++ r) =
      (findMatch r).map (fun m => ⟨w ++ m.before, m.code, m.inner, m.after⟩) := by
  induction w with
  | nil =>
    rw [List.nil_append]
    cases hf : findMatch r with
    | none => rfl
    | some m => rfl
  | cons d w ih =>
    have hd : d ≠ '<' := fun h => hw (by simp [h])
    have hw2 : '<' ∉ w := fun h => hw (List.mem_cons_of_mem _ h)
    rw [List.cons_append, findMatch, matchHere_head d _ hd, ih hw2]
    cases hf : findMatch r with
    | none => rfl
    | some m => rfl

theorem findMatch_sound : ∀ (s : Str) (m : RegexMatch), findMatch s = some m →
    s = m.before ++ m.text ++ m.after ∧ matchHere (m.text ++ m.after) = some (m.code, m.inner, m.after) := by
  intro s
  induction s with
  | nil => intro m h; simp [findMatch] at h
  | cons d s ih =>
    intro m h
    rw [findMatch] at h
    cases hm : matchHere (d :: s) with
    | some q =>
      obtain ⟨code, inner, after⟩ := q
      simp only [hm, Option.some.injEq] at h
      subst h
      obtain ⟨c1, c2, hcode, h1, h2, hc, hs⟩ := matchHere_sound _ _ _ _ hm
      have e3 := cut_sound endMarker _ _ _ hc
      have e4 : d :: s = RegexMatch.text ⟨[], code, inner, after⟩ ++ after := by
        rw [hs]
        simp only [RegexMatch.text]
        rw [e3]
        simp [List.append_assoc]
      refine ⟨by simpa using e4, ?_⟩
      simp only
      rw [← e4]
      exact hm
    | none =>
      simp only [hm] at h
      cases hf : findMatch s with
      | none => simp [hf] at h
      | some m1 =>
        simp only [hf, Option.some.injEq] at h
        subst h
        obtain ⟨e1, e2⟩ := ih m1 hf
        refine ⟨?_, e2⟩
        simp only [RegexMatch.text] at e1 ⊢
        rw [e1]
        simp

theorem text_length_pos (m : RegexMatch) : 0 < m.text.length := by
  simp [RegexMatch.text, startOpen]

theorem findMatch_after_length (s : Str) (m : RegexMatch) (h : findMatch s = some m) :
    m.after.length < s.length := by
  have e := (findMatch_sound s m h).1
  have hp := text_length_pos m
  have hl := congrArg List.length e
  simp only [List.length_append] at hl
  omega

theorem findAllLoop_fuel : ∀ (n : Nat) (s : Str), s.length ≤ n →
    findAllLoop n s =
      match findMatch s with
      | none => []
      | some m => m.text :: findAllLoop m.after.length m.after := by
  intro n
  induction n using Nat.strong_induction_on with
  | _ n ih =>
    intro s hs
    cases n with
    | zero =>
      have : s = [] := List.length_eq_zero.mp (Nat.le_zero.mp hs)
      subst this
      simp [findAllLoop, findMatch]
    | succ n =>
      simp only [findAllLoop]
      cases hf : findMatch s with
      | none => rfl
      | some m =>
        have hb := findMatch_after_length s m hf
        simp only
        have e1 := ih n (Nat.lt_succ_self n) m.after (by omega)
        have e2 := ih m.after.length (by omega) m.after (Nat.le_refl _)
        rw [e1, ← e2]

/-- The unfolding of `FindAllString` at the leftmost match. -/
theorem findAllString_unfold (s : Str) :
    FindAllString s =
      match findMatch s with
      | none => []
      | some m => m.text :: FindAllString m.after := by
  unfold FindAllString
  rw [findAllLoop_fuel s.length s (Nat.le_refl _)]

theorem findMatch_text (s : Str) (m : RegexMatch) (h : findMatch s = some m) :
    ∃ m2, findMatch m.text = some m2 := by
  obtain ⟨_, h2⟩ := findMatch_sound s m h
  obtain ⟨c1, c2, hcode, h1, h2, hc, hs⟩ := matchHere_sound _ _ _ _ h2
  have ht : m.text = startOpen ++ [c1, c2] ++ startClose ++ (m.inner ++ endMarker) := by
    simp [RegexMatch.text, hcode]
  have hcut := cut_isSome endMarker m.inner []
  rw [List.append_nil] at hcut
  cases hq : Go.Cut endMarker (m.inner ++ endMarker) with
  | none => simp [hq] at hcut
  | some q =>
    obtain ⟨i2, a2⟩ := q
    have hm := matchHere_region c1 c2 _ i2 a2 h1 h2 hq
    rw [← ht] at hm
    have hne : m.text ≠ [] := List.length_pos.mp (text_length_pos m)
    cases htx : m.text with
    | nil => exact absurd htx hne
    | cons d t =>
      rw [htx] at hm
      exact ⟨⟨[], [c1, c2], i2, a2⟩, by rw [findMatch, hm]⟩

theorem findAllLoop_found : ∀ (n : Nat) (s f : Str), f ∈ findAllLoop n s →
    ∃ m, FindStringSubmatch f = some m := by
  intro n
  induction n with
  | zero => intro s f h; simp [findAllLoop] at h
  | succ n ih =>
    intro s f h
    simp only [findAllLoop] at h
    cases hf : findMatch s with
    | none => simp [hf] at h
    | some m =>
      simp only [hf, List.mem_cons] at h
      rcases h with h | h
      · subst h
        exact findMatch_text s m hf
      · exact ih m.after f h

theorem resolveLoop_total (langId : Str) : ∀ (founds : List Str),
    (∀ f ∈ founds, ∃ m, FindStringSubmatch f = some m) →
    ∀ contents, ∃ r, resolveLoop langId founds contents = some r := by
  intro founds
  induction founds with
  | nil => intro _ contents; exact ⟨contents, rfl⟩
  | cons f rest ih =>
    intro hall contents
    obtain ⟨m, hm⟩ := hall f (List.mem_cons_self _ _)
    have hrest : ∀ g ∈ rest, ∃ m, FindStringSubmatch g = some m :=
      fun g hg => hall g (List.mem_cons_of_mem _ hg)
    simp only [resolveLoop, hm]
    split
    · exact ih hrest _
    · exact ih hrest _

/-- `ReadFileLang` does not panic: every found string matches again. -/
theorem resolveInline_total (s langId : Str) : ∃ r, resolveInline s langId = some r :=
  resolveLoop_total langId _ (fun f hf => findAllLoop_found _ _ f hf) s

theorem findMatch_complete : ∀ (a b d : Str) (c1 c2 : Char), c1.isLower = true →
    c2.isLower = true →
    ∃ m, findMatch (a ++ (startOpen ++ [c1, c2] ++ startClose) ++ b ++ endMarker ++ d) = some m := by
  intro a
  induction a with
  | nil =>
    intro b d c1 c2 h1 h2
    have hcut := cut_isSome endMarker b d
    cases hq : Go.Cut endMarker (b ++ endMarker ++ d) with
    | none =>
      rw [hq] at hcut
      simp at hcut
    | some q =>
      obtain ⟨i2, a2⟩ := q
      have hm := matchHere_region c1 c2 _ i2 a2 h1 h2 hq
      have e : [] ++ (startOpen ++ [c1, c2] ++ startClose) ++ b ++ endMarker ++ d
          = '<' :: ("? START-LANG [".toList ++ [c1, c2] ++ startClose ++ (b ++ endMarker ++ d)) := by
        simp [startOpen]
      have e2 : startOpen ++ [c1, c2] ++ startClose ++ (b ++ endMarker ++ d)
          = '<' :: ("? START-LANG [".toList ++ [c1, c2] ++ startClose ++ (b ++ endMarker ++ d)) := by
        simp [startOpen]
      rw [e2] at hm
      rw [e, findMatch, hm]
      exact ⟨_, rfl⟩
  | cons x a ih =>
    intro b d c1 c2 h1 h2
    obtain ⟨m, hm⟩ := ih b d c1 c2 h1 h2
    simp only [List.cons_append]
    rw [findMatch]
    cases hh : matchHere (x :: (a ++ (startOpen ++ [c1, c2] ++ startClose) ++ b ++ endMarker ++ d)) with
    | some q => exact ⟨_, rfl⟩
    | none =>
      simp only [List.append_assoc] at hm ⊢
      rw [hm]
      exact ⟨_, rfl⟩

theorem hasRegion_iff (s : Str) : HasRegion s ↔ (findMatch s).isSome = true := by
  constructor
  · rintro ⟨a, b, d, c1, c2, h1, h2, rfl⟩
    obtain ⟨m, hm⟩ := findMatch_complete a b d c1 c2 h1 h2
    rw [hm]
    rfl
  · intro h
    cases hf : findMatch s with
    | none => simp [hf] at h
    | some m =>
      obtain ⟨e1, e2⟩ := findMatch_sound s m hf
      obtain ⟨c1, c2, hcode, h1, h2, _, _⟩ := matchHere_sound _ _ _ _ e2
      refine ⟨m.before, m.inner, m.after, c1, c2, h1, h2, ?_⟩
      rw [e1]
      simp [RegexMatch.text, hcode]

/-- C9: a text without a complete marker region (no start marker with a code of
two lowercase letters that an end marker follows) comes back unchanged, for
every language, and without a panic. -/
theorem resolveInline_no_region (s langId : Str) (h : ¬ HasRegion s) :
    resolveInline s langId = some s := by
  have hf : findMatch s = none := by
    cases hf : findMatch s with
    | none => rfl
    | some m =>
      exact absurd ((hasRegion_iff s).mpr (by simp [hf])) h
  unfold resolveInline
  rw [findAllString_unfold, hf]
  rfl

set_option maxRecDepth 100000 in
/-- C9, at a text with a stray end marker, a start marker whose code is in
capitals and an unterminated start marker: it has no region and comes back
as it is. -/
theorem resolveInline_no_region_witness :
    ¬ HasRegion "a<? END-LANG ?>b<? START-LANG [EN] ?>c<? START-LANG [en] ?>d".toList ∧
    resolveInline "a<? END-LANG ?>b<? START-LANG [EN] ?>c<? START-LANG [en] ?>d".toList "en".toList
      = some "a<? END-LANG ?>b<? START-LANG [EN] ?>c<? START-LANG [en] ?>d".toList :=
  ⟨by rw [hasRegion_iff]; decide,
   resolveInline_no_region _ _ (by rw [hasRegion_iff]; decide)⟩

theorem loop_eq_find (langId : Str) (texts : List MultiLanguageText) :
    GetMultiLanguageText.loop langId texts =
      match texts.find? (fun e => e.Id = langId) with
      | some e => e.Text
      | none => [] := by
  induction texts with
  | nil => rfl
  | cons e rest ih =>
    by_cases h : e.Id = langId
    · simp [GetMultiLanguageText.loop, h]
    · simp [GetMultiLanguageText.loop, h, ih]

/-- C2: `GetMultiLanguageText` is the specification's `resolveList`, for every
list and every language. -/
theorem getMultiLanguageText_eq_resolveList (texts : List MultiLanguageText) (langId : Str) :
    GetMultiLanguageText texts langId = resolveList texts langId := by
  cases texts with
  | nil => rfl
  | cons first rest =>
    unfold GetMultiLanguageText resolveList
    by_cases h : first.Id = "_any".toList
    · simp [h]
    · simp only [h, if_false]
      exact loop_eq_find langId (first :: rest)

theorem region_cons (code inner : Str) :
    region code inner = '<' :: ("? START-LANG [".toList ++ code ++ startClose ++ inner ++ endMarker) := by
  simp [region, startOpen]

theorem lower_ne_lt (c : Char) (h : c.isLower = true) : c ≠ '<' := by
  rintro rfl
  revert h
  decide

theorem findMatch_region (c1 c2 : Char) (x rest : Str) (h1 : c1.isLower = true)
    (h2 : c2.isLower = true) (hx : '<' ∉ x) :
    findMatch (region [c1, c2] x ++ rest) = some ⟨[], [c1, c2], x, rest⟩ := by
  have hcut : Go.Cut endMarker (x ++ (endMarker ++ rest)) = some (x, rest) := by
    have e : endMarker = '<' :: "? END-LANG ?>".toList := by decide
    have := cut_skip '<' "? END-LANG ?>".toList x (endMarker ++ rest) hx
    rw [← e] at this
    rw [this, cut_here endMarker rest (by decide)]
    simp
  have hm := matchHere_region c1 c2 _ x rest h1 h2 hcut
  have e2 : region [c1, c2] x ++ rest = startOpen ++ [c1, c2] ++ startClose ++ (x ++ (endMarker ++ rest)) := by
    simp [region]
  rw [e2]
  rw [e2.symm, region_cons, List.cons_append, findMatch]
  rw [← List.cons_append, ← region_cons, e2, hm]

theorem prefix_free_eq (c : Char) : ∀ (x y a b : Str), c ∉ x → c ∉ y →
    x ++ c :: a <+: y ++ c :: b → x = y := by
  intro x
  induction x with
  | nil =>
    intro y a b _ hy h
    cases y with
    | nil => rfl
    | cons d y =>
      rw [List.nil_append, List.cons_append, List.cons_prefix_cons] at h
      exact absurd (by simp [h.1]) hy
  | cons d x ih =>
    intro y a b hx hy h
    cases y with
    | nil =>
      rw [List.nil_append, List.cons_append, List.cons_prefix_cons] at h
      exact absurd (by simp [h.1]) hx
    | cons e y =>
      rw [List.cons_append, List.cons_append, List.cons_prefix_cons] at h
      have hx2 : c ∉ x := fun hm => hx (List.mem_cons_of_mem _ hm)
      have hy2 : c ∉ y := fun hm => hy (List.mem_cons_of_mem _ hm)
      rw [h.1, ih y a b hx2 hy2 h.2]

theorem region_prefix_eq (c1 c2 d1 d2 : Char) (x z rest : Str) (hx : '<' ∉ x) (hz : '<' ∉ z)
    (h : (region [c1, c2] x).isPrefixOf (region [d1, d2] z ++ rest) = true) :
    region [c1, c2] x = region [d1, d2] z := by
  rw [List.isPrefixOf_iff_prefix] at h
  have e1 : region [c1, c2] x = startOpen ++ (c1 :: c2 :: (startClose ++ (x ++ '<' :: "? END-LANG ?>".toList))) := by
    simp [region, endMarker]
  have e2 : region [d1, d2] z ++ rest
      = startOpen ++ (d1 :: d2 :: (startClose ++ (z ++ '<' :: ("? END-LANG ?>".toList ++ rest)))) := by
    simp [region, endMarker]
  rw [e1, e2, List.prefix_append_right_inj, List.cons_prefix_cons, List.cons_prefix_cons,
    List.prefix_append_right_inj] at h
  obtain ⟨rfl, rfl, h3⟩ := h
  rw [prefix_free_eq '<' x z _ _ hx hz h3]

theorem region_inj (c1 c2 d1 d2 : Char) (x z : Str)
    (h : region [c1, c2] x = region [d1, d2] z) : c1 = d1 ∧ c2 = d2 ∧ x = z := by
  simp only [region, List.append_assoc, List.append_cancel_left_eq, List.cons_append,
    List.nil_append, List.cons.injEq] at h
  obtain ⟨rfl, rfl, h3⟩ := h
  exact ⟨rfl, rfl, List.append_cancel_right h3⟩

theorem region_not_in_end (c1 c2 : Char) (x rest : Str) :
    (region [c1, c2] x).isPrefixOf (endMarker ++ rest) = false := by
  simp [region, startOpen, endMarker, List.isPrefixOf]

theorem replaceAll_over_region (c1 c2 d1 d2 : Char) (x z new rest : Str)
    (hd1 : d1.isLower = true) (hd2 : d2.isLower = true) (hx : '<' ∉ x) (hz : '<' ∉ z)
    (hne : region [d1, d2] z ≠ region [c1, c2] x) :
    Go.ReplaceAll (region [d1, d2] z ++ rest) (region [c1, c2] x) new
      = region [d1, d2] z ++ Go.ReplaceAll rest (region [c1, c2] x) new := by
  have hR : region [c1, c2] x ≠ [] := by simp [region_cons]
  have h0 : (region [c1, c2] x).isPrefixOf (region [d1, d2] z ++ rest) = false := by
    cases hp : (region [c1, c2] x).isPrefixOf (region [d1, d2] z ++ rest) with
    | false => rfl
    | true => exact absurd (region_prefix_eq c1 c2 d1 d2 x z rest hx hz hp).symm hne
  have hw : '<' ∉ "? START-LANG [".toList ++ [d1, d2] ++ startClose ++ z := by
    have n1 := lower_ne_lt d1 hd1
    have n2 := lower_ne_lt d2 hd2
    simp only [List.mem_append, not_or]
    refine ⟨⟨⟨by decide, ?_⟩, by decide⟩, hz⟩
    simp [Ne.symm n1, Ne.symm n2]
  have he : '<' ∉ "? END-LANG ?>".toList := by decide
  have e1 : region [d1, d2] z ++ rest
      = '<' :: ("? START-LANG [".toList ++ [d1, d2] ++ startClose ++ z
          ++ ('<' :: ("? END-LANG ?>".toList ++ rest))) := by
    simp [region, startOpen, endMarker]
  have h1 : (region [c1, c2] x).isPrefixOf ('<' :: ("? END-LANG ?>".toList ++ rest)) = false := by
    have := region_not_in_end c1 c2 x rest
    simpa [endMarker] using this
  have e3 : region [d1, d2] z
      = '<' :: ("? START-LANG [".toList ++ [d1, d2] ++ startClose ++ z
          ++ ('<' :: "? END-LANG ?>".toList)) := by
    simp [region, startOpen, endMarker]
  rw [e1] at h0
  rw [e1, replaceAll_step _ _ _ _ hR h0]
  generalize hRR : region [c1, c2] x = R at *
  obtain ⟨p, hp⟩ : ∃ p, R = '<' :: p := ⟨_, by rw [← hRR, region_cons]⟩
  subst hp
  rw [replaceAll_skip '<' p new _ _ hw, replaceAll_step _ _ _ _ hR h1,
    replaceAll_skip '<' p new _ _ he, e3]
  simp

theorem resolved_free (langId : Str) (g : Segment) (hg : g.Plain) :
    '<' ∉ g.resolved langId := by
  obtain ⟨_, hi, hp⟩ := hg
  unfold Segment.resolved
  split <;> simp [hi, hp]

theorem piece_done (langId : Str) (done : Str → Bool) (g : Segment)
    (h : done (region g.code g.inner) = true) : piece langId done g = g.resolved langId := by
  unfold piece
  rw [if_pos h]

theorem piece_todo (langId : Str) (done : Str → Bool) (g : Segment)
    (h : done (region g.code g.inner) = false) : piece langId done g = g.source := by
  unfold piece
  rw [if_neg (by simp [h])]

theorem replaceAll_pieces (langId : Str) (done : Str → Bool) (c1 c2 : Char) (x : Str)
    (hx : '<' ∉ x) :
    ∀ (segs : List Segment), (∀ g ∈ segs, g.Plain) → ∀ (u : Str), '<' ∉ u →
      Go.ReplaceAll (u ++ segs.flatMap (piece langId done)) (region [c1, c2] x)
          (if [c1, c2] = langId then x else [])
        = u ++ segs.flatMap (piece langId (fun r => r == region [c1, c2] x || done r)) := by
  intro segs
  induction segs with
  | nil =>
    intro _ u hu
    simp only [List.flatMap_nil, List.append_nil]
    rw [region_cons]
    exact replaceAll_none '<' _ _ u hu
  | cons g gs ih =>
    intro hall u hu
    have hg : g.Plain := hall g (List.mem_cons_self _ _)
    have hgs : ∀ h ∈ gs, h.Plain := fun h hh => hall h (List.mem_cons_of_mem _ hh)
    obtain ⟨⟨d1, d2, hcode, hd1, hd2⟩, hgi, hgp⟩ := hg
    simp only [List.flatMap_cons]
    by_cases hd : done (region g.code g.inner) = true
    · -- already resolved: plain text
      have hfree : '<' ∉ u ++ g.resolved langId := by
        have := resolved_free langId g ⟨⟨d1, d2, hcode, hd1, hd2⟩, hgi, hgp⟩
        simp [hu, this]
      have := ih hgs (u ++ g.resolved langId) hfree
      rw [piece_done _ _ g hd, piece_done _ _ g (by simp [hd])]
      simpa [List.append_assoc] using this
    · by_cases he : region g.code g.inner = region [c1, c2] x
      · -- the region being replaced
        have hinj : g.code = [c1, c2] ∧ g.inner = x := by
          rw [hcode] at he
          obtain ⟨r1, r2, r3⟩ := region_inj d1 d2 c1 c2 g.inner x he
          rw [hcode, r1, r2, r3]
          exact ⟨rfl, rfl⟩
        have hR : region [c1, c2] x ≠ [] := by simp [region_cons]
        have hnew : (fun r => r == region [c1, c2] x || done r) (region g.code g.inner) = true := by
          simp [he]
        have hpn : piece langId (fun r => r == region [c1, c2] x || done r) g
            = (if [c1, c2] = langId then x else []) ++ g.plain := by
          rw [piece_done _ _ g hnew, Segment.resolved, hinj.1, hinj.2]
        have hpo : piece langId done g = region [c1, c2] x ++ g.plain := by
          rw [piece_todo _ _ g (by simpa using hd), Segment.source, he]
        rw [hpn, hpo]
        have e : u ++ (region [c1, c2] x ++ g.plain ++ gs.flatMap (piece langId done))
            = u ++ (region [c1, c2] x ++ (g.plain ++ gs.flatMap (piece langId done))) := by
          simp
        rw [e]
        have hskip : ∀ (rest : Str), Go.ReplaceAll (u ++ rest) (region [c1, c2] x)
            (if [c1, c2] = langId then x else [])
            = u ++ Go.ReplaceAll rest (region [c1, c2] x) (if [c1, c2] = langId then x else []) := by
          intro rest
          rw [region_cons]
          exact replaceAll_skip '<' _ _ u rest hu
        rw [hskip, replaceAll_here _ _ _ hR, ih hgs g.plain hgp]
        simp
      · -- another region: stepped over
        have hnew : (fun r => r == region [c1, c2] x || done r) (region g.code g.inner) = false := by
          simp [he, hd]
        have hpn : piece langId (fun r => r == region [c1, c2] x || done r) g
            = region [d1, d2] g.inner ++ g.plain := by
          rw [piece_todo _ _ g hnew, Segment.source, hcode]
        have hpo : piece langId done g = region [d1, d2] g.inner ++ g.plain := by
          rw [piece_todo _ _ g (by simpa using hd), Segment.source, hcode]
        rw [hpn, hpo]
        have e : u ++ (region [d1, d2] g.inner ++ g.plain ++ gs.flatMap (piece langId done))
            = u ++ (region [d1, d2] g.inner ++ (g.plain ++ gs.flatMap (piece langId done))) := by
          simp
        rw [e]
        have hskip : ∀ (rest : Str), Go.ReplaceAll (u ++ rest) (region [c1, c2] x)
            (if [c1, c2] = langId then x else [])
            = u ++ Go.ReplaceAll rest (region [c1, c2] x) (if [c1, c2] = langId then x else []) := by
          intro rest
          rw [region_cons]
          exact replaceAll_skip '<' _ _ u rest hu
        rw [hcode] at he
        rw [hskip, replaceAll_over_region c1 c2 d1 d2 x g.inner _ _ hd1 hd2 hx hgi he,
          ih hgs g.plain hgp]
        simp

theorem resolveLoop_pieces (langId : Str) (segs : List Segment) (hsegs : ∀ g ∈ segs, g.Plain)
    (u : Str) (hu : '<' ∉ u) :
    ∀ (todo : List Segment), (∀ g ∈ todo, g.Plain) → ∀ (done : Str → Bool),
      resolveLoop langId (todo.map (fun g => region g.code g.inner))
          (u ++ segs.flatMap (piece langId done))
        = some (u ++ segs.flatMap (piece langId
            (fun r => todo.any (fun g => r == region g.code g.inner) || done r))) := by
  intro todo
  induction todo with
  | nil =>
    intro _ done
    simp [resolveLoop]
  | cons g gs ih =>
    intro hall done
    have hg : g.Plain := hall g (List.mem_cons_self _ _)
    have hgs : ∀ h ∈ gs, h.Plain := fun h hh => hall h (List.mem_cons_of_mem _ hh)
    obtain ⟨⟨d1, d2, hcode, hd1, hd2⟩, hgi, hgp⟩ := hg
    have hfm := findMatch_region d1 d2 g.inner [] hd1 hd2 hgi
    rw [List.append_nil] at hfm
    simp only [List.map_cons, resolveLoop, FindStringSubmatch, hcode, hfm]
    have hstep := replaceAll_pieces langId done d1 d2 g.inner hgi segs hsegs u hu
    have hboth : (if [d1, d2] = langId then
          resolveLoop langId (gs.map (fun g => region g.code g.inner))
            (Go.ReplaceAll (u ++ segs.flatMap (piece langId done)) (region [d1, d2] g.inner) g.inner)
        else
          resolveLoop langId (gs.map (fun g => region g.code g.inner))
            (Go.ReplaceAll (u ++ segs.flatMap (piece langId done)) (region [d1, d2] g.inner) []))
        = resolveLoop langId (gs.map (fun g => region g.code g.inner))
            (Go.ReplaceAll (u ++ segs.flatMap (piece langId done)) (region [d1, d2] g.inner)
              (if [d1, d2] = langId then g.inner else [])) := by
      split <;> rfl
    rw [hboth, hstep, ih hgs]
    have hfun : (fun r => (gs.any fun g => r == region g.code g.inner)
          || (r == region [d1, d2] g.inner || done r))
        = (fun r => (r == region [d1, d2] g.inner || gs.any fun g => r == region g.code g.inner)
          || done r) := by
      funext r
      cases (r == region [d1, d2] g.inner) <;>
        cases (gs.any fun g => r == region g.code g.inner) <;> simp
    simp only [List.any_cons, hcode]
    rw [hfun]

theorem findAllString_segments : ∀ (segs : List Segment), (∀ g ∈ segs, g.Plain) →
    ∀ (t0 : Str), '<' ∉ t0 →
      FindAllString (segSource t0 segs) = segs.map (fun g => region g.code g.inner) := by
  intro segs
  induction segs with
  | nil =>
    intro _ t0 ht
    have := findMatch_skip t0 [] ht
    rw [List.append_nil] at this
    rw [findAllString_unfold]
    simp only [segSource, List.flatMap_nil, List.append_nil, this, findMatch]
    rfl
  | cons g gs ih =>
    intro hall t0 ht
    have hg : g.Plain := hall g (List.mem_cons_self _ _)
    have hgs : ∀ h ∈ gs, h.Plain := fun h hh => hall h (List.mem_cons_of_mem _ hh)
    obtain ⟨⟨d1, d2, hcode, hd1, hd2⟩, hgi, hgp⟩ := hg
    have e : segSource t0 (g :: gs) = t0 ++ (region [d1, d2] g.inner ++ segSource g.plain gs) := by
      simp [segSource, Segment.source, hcode]
    rw [findAllString_unfold, e, findMatch_skip t0 _ ht,
      findMatch_region d1 d2 g.inner _ hd1 hd2 hgi]
    simp only [Option.map_some', List.map_cons, hcode]
    rw [ih hgs g.plain hgp]
    rfl

/-- C8: on a source built from plain segments the regions of the language
asked for collapse to their inner text, the others vanish, the rest stays. -/
theorem resolveInline_segments (t0 : Str) (segs : List Segment) (langId : Str)
    (ht : '<' ∉ t0) (hsegs : ∀ g ∈ segs, g.Plain) :
    resolveInline (segSource t0 segs) langId = some (segResolved langId t0 segs) := by
  unfold resolveInline
  rw [findAllString_segments segs hsegs t0 ht]
  have h0 : segSource t0 segs = t0 ++ segs.flatMap (piece langId (fun _ => false)) := by
    have hp : piece langId (fun _ => false) = Segment.source := by
      funext g
      exact piece_todo _ _ g rfl
    rw [hp]
    rfl
  rw [h0, resolveLoop_pieces langId segs hsegs t0 ht segs hsegs]
  unfold segResolved
  congr 2
  apply List.flatMap_congr
  intro g hg
  have : segs.any (fun h => region g.code g.inner == region h.code h.inner) = true := by
    rw [List.any_eq_true]
    exact ⟨g, hg, by simp⟩
  rw [piece_done _ _ g (by simp [this])]

theorem readFileLang_moduleText (env : Env) (locale : Locale) (m : Module) :
    ReadFileLang env.files (moduleSrc env m) locale.Id = some (moduleText env locale m) := by
  obtain ⟨r, hr⟩ := resolveInline_total (ReadFile env.files (moduleSrc env m)) locale.Id
  unfold moduleText ReadFileLang
  rw [hr]
  rfl

theorem sliceList_appends (l : List Str) : ∀ (slice : Option (List Str)),
    sliceList (sliceAppends slice l) = sliceList slice ++ l := by
  induction l with
  | nil => intro slice; simp [sliceAppends]
  | cons x l ih =>
    intro slice
    have := ih (sliceAppend slice x)
    simp only [sliceAppends, List.foldl_cons] at this ⊢
    rw [this]
    simp [sliceList, sliceAppend]

theorem sliceAppends_append (l1 l2 : List Str) (slice : Option (List Str)) :
    sliceAppends (sliceAppends slice l1) l2 = sliceAppends slice (l1 ++ l2) := by
  simp [sliceAppends, List.foldl_append]

theorem scriptLoop_eq (buildUUID : Str) : ∀ (scripts : List Str) (js : Str)
    (slice : Option (List Str)),
    scriptLoop buildUUID scripts (js, slice)
      = (js ++ scripts.flatMap (scriptTag buildUUID), sliceAppends slice scripts) := by
  intro scripts
  induction scripts with
  | nil => intro js slice; simp [scriptLoop, sliceAppends]
  | cons s rest ih =>
    intro js slice
    rw [scriptLoop, ih]
    simp [sliceAppends]

theorem moduleLoop_eq (env : Env) (locale : Locale) (e : PageStructure) :
    ∀ (ms : List Module) (html js : Str) (slice : Option (List Str)),
      moduleLoop env locale e ms (html, js, slice)
        = some
            (match (ms.filter (fun m => m.Id = e.ModuleId)).getLast? with
              | none => html
              | some m => moduleText env locale m,
             js ++ ((ms.filter (fun m => m.Id = e.ModuleId)).flatMap (fun m => m.Scripts)).flatMap
                (scriptTag env.buildUUID),
             sliceAppends slice
               ((ms.filter (fun m => m.Id = e.ModuleId)).flatMap (fun m => m.Scripts))) := by
  intro ms
  induction ms with
  | nil => intro html js slice; simp [moduleLoop, sliceAppends]
  | cons m rest ih =>
    intro html js slice
    by_cases h : m.Id = e.ModuleId
    · have hr := readFileLang_moduleText env locale m
      unfold moduleSrc at hr
      simp only [moduleLoop, h, if_true, hr, scriptLoop_eq, ih]
      simp only [List.filter_cons, h, decide_True, if_true, List.flatMap_cons,
        List.flatMap_append, List.append_assoc, sliceAppends_append]
      congr 2
      generalize rest.filter (fun m => decide (m.Id = e.ModuleId)) = fl
      cases fl with
      | nil => rfl
      | cons x xs =>
        rw [List.getLast?_cons_cons]
        cases hx : (x :: xs).getLast? with
        | none => simp at hx
        | some y => rfl
    · simp only [moduleLoop, h, if_false, ih]
      simp [List.filter_cons, h]

theorem structureLoop_eq (env : Env) (locale : Locale) :
    ∀ (entries : List PageStructure) (newString mainHtml : Str) (slice : Option (List Str)),
      structureLoop env locale entries (newString, mainHtml, slice)
        = some
            (newString ++ entries.flatMap (fun e => entryHtml env locale e ++ entryJs env e),
             mainHtml ++ entries.flatMap (entryHtml env locale),
             sliceAppends slice (entries.flatMap (entryScripts env))) := by
  intro entries
  induction entries with
  | nil => intro newString mainHtml slice; simp [structureLoop, sliceAppends]
  | cons e rest ih =>
    intro newString mainHtml slice
    simp only [structureLoop, moduleLoop_eq, ih]
    simp only [List.flatMap_cons, List.append_assoc, sliceAppends_append, List.nil_append]
    rfl

theorem newStringFor_eq (env : Env) (route : Route) (locale : Locale) (localeFolder pageTitle : Str)
    (currentVersion : PostVersion) (oldString mainHtml : Str) (slice : Option (List Str)) :
    newStringFor env route locale localeFolder pageTitle currentVersion oldString mainHtml slice
      = some
          (tokenValue env route locale localeFolder pageTitle currentVersion oldString,
           if oldString = tokPageMain then mainHtml ++ mainHtmlOf env route locale else mainHtml,
           if oldString = tokPageMain then sliceAppends slice (mainScriptsOf env route)
           else slice) := by
  have d1 : tokPageLang ≠ tokPageMain := by decide
  have d2 : tokPageReplaceExtension ≠ tokPageMain := by decide
  have d3 : tokPageTitle ≠ tokPageMain := by decide
  have d4 : tokPageHeader ≠ tokPageMain := by decide
  have d5 : tokPageSidebar ≠ tokPageMain := by decide
  unfold newStringFor tokenValue
  by_cases h1 : oldString = tokPageLang
  · subst h1; simp [d1]
  by_cases h2 : oldString = tokPageReplaceExtension
  · subst h2; simp [d2, h1]
  by_cases h3 : oldString = tokPageTitle
  · subst h3; simp [d3, h1, h2]
  by_cases h4 : oldString = tokPageHeader
  · subst h4; simp [d4, h1, h2, h3]
  by_cases h5 : oldString = tokPageSidebar
  · subst h5; simp [d5, h1, h2, h3, h4]
  by_cases h6 : oldString = tokPageMain
  · subst h6
    simp only [h1, h2, h3, h4, h5, if_false, if_true, structureLoop_eq]
    rfl
  simp only [h1, h2, h3, h4, h5, h6, if_false]
  split_ifs <;> rfl

theorem substLoop_eq (env : Env) (route : Route) (locale : Locale) (localeFolder pageTitle : Str)
    (currentVersion : PostVersion) :
    ∀ (olds : List Str) (pageHtml mainHtml : Str) (slice : Option (List Str)),
      substLoop env route locale localeFolder pageTitle currentVersion olds
          (pageHtml, mainHtml, slice)
        = some
            (olds.foldl (fun s old => Go.ReplaceAll s old
                (tokenValue env route locale localeFolder pageTitle currentVersion old)) pageHtml,
             mainHtml ++ (olds.filter (fun old => old = tokPageMain)).flatMap
                (fun _ => mainHtmlOf env route locale),
             sliceAppends slice ((olds.filter (fun old => old = tokPageMain)).flatMap
                (fun _ => mainScriptsOf env route))) := by
  intro olds
  induction olds with
  | nil => intro pageHtml mainHtml slice; simp [substLoop, sliceAppends]
  | cons old rest ih =>
    intro pageHtml mainHtml slice
    simp only [substLoop, newStringFor_eq, ih, List.foldl_cons]
    by_cases h : old = tokPageMain
    · simp [h, sliceAppends_append]
    · simp [h]

theorem oldStrings_main (route : Route) :
    (oldStringsOf route).filter (fun old => old = tokPageMain) = [tokPageMain] := by
  unfold oldStringsOf
  split <;> decide

/-- `GeneratePage` does not panic before it writes, and what it has computed
then. -/
theorem assemble_eq (env : Env) (route : Route) (post : Post) (locale : Locale) :
    assemble env route post locale
      = some
          { localeFolder := Go.ReplaceAll locale.Path ['/'] []
            currentVersion := (versionAndTitle env route post locale).1
            pageHtml := Go.ReplaceAll (substituted env route post locale) tokWebRoot
              (env.config.WebRoot ++ locale.Path)
            newFileName :=
              if route.Path = ['/'] then "index".toList else Go.TrimPrefix route.Path ['/']
            pageRouteObj := exportedPage env route post locale
            pageRouteJson := jsonMarshal (exportedPage env route post locale) } := by
  unfold assemble
  simp only [substLoop_eq, oldStrings_main]
  simp [substituted, exportedPage]

theorem versionLoop_eq (config : Config) (locale : Locale) :
    ∀ (versions : List PostVersion) (cv : PostVersion) (title : Str),
      versionLoop config locale versions (cv, title)
        = match lastVersion locale versions with
          | none => (cv, title)
          | some v => (v, withSiteTitle config v.Title) := by
  intro versions
  induction versions with
  | nil => intro cv title; rfl
  | cons v rest ih =>
    intro cv title
    unfold lastVersion at ih ⊢
    by_cases h : v.LangId = locale.Id
    · simp only [versionLoop, h, if_true, ih, List.filter_cons, decide_True]
      generalize rest.filter (fun v => decide (v.LangId = locale.Id)) = fl
      cases fl with
      | nil => rfl
      | cons x xs =>
        rw [List.getLast?_cons_cons]
        cases hx : (x :: xs).getLast? with
        | none => simp at hx
        | some y => rfl
    · simp only [versionLoop, h, if_false, ih]
      simp [List.filter_cons, h]

theorem lastVersion_mem (locale : Locale) (versions : List PostVersion) (v : PostVersion)
    (h : lastVersion locale versions = some v) : v ∈ versions ∧ v.LangId = locale.Id := by
  unfold lastVersion at h
  have hm := List.mem_of_getLast?_eq_some h
  rw [List.mem_filter] at hm
  exact ⟨hm.1, by simpa using hm.2⟩

theorem lastVersion_some (locale : Locale) (versions : List PostVersion)
    (h : ∃ v ∈ versions, v.LangId = locale.Id) : ∃ v, lastVersion locale versions = some v := by
  obtain ⟨v, hv, hl⟩ := h
  unfold lastVersion
  have hne : versions.filter (fun v => decide (v.LangId = locale.Id)) ≠ [] := by
    intro hnil
    have : v ∈ versions.filter (fun v => decide (v.LangId = locale.Id)) := by
      rw [List.mem_filter]
      exact ⟨hv, by simpa using hl⟩
    rw [hnil] at this
    simp at this
  cases hx : (versions.filter (fun v => decide (v.LangId = locale.Id))).getLast? with
  | none =>
    rw [List.getLast?_eq_none_iff] at hx
    exact absurd hx hne
  | some y => exact ⟨y, rfl⟩

theorem stubWrites_eq (env : Env) (locale : Locale) (a : Assembled) :
    ∀ (versions : List PostVersion),
      stubWrites env locale a versions
        = (versions.filter (fun w => w.LangId ≠ locale.Id)).map (fun w =>
            FsOp.CreateFile
              (Go.Join [env.config.BuildPath, a.localeFolder, "post".toList,
                w.Permalink ++ ".html".toList])
              (GetRedirectScript (a.currentVersion.Permalink ++ ".html".toList))) := by
  intro versions
  induction versions with
  | nil => rfl
  | cons w rest ih =>
    by_cases h : w.LangId = locale.Id
    · simp [stubWrites, h, ih]
    · simp [stubWrites, h, ih]

/-- C4: for a `post` route and a post with a version in the locale's language,
`GeneratePage` writes the assembled page and its JSON sidecar under
`post/<permalink>` of that version (the last such version of the post), then a
redirect stub to `<permalink>.html` at the permalink of every version of
another language, and no other file; before, it makes the locale's folder. -/
theorem generatePage_post (env : Env) (route : Route) (post : Post) (locale : Locale)
    (hpost : route.Type_ = "post".toList)
    (hv : ∃ v ∈ post.Versions, v.LangId = locale.Id) :
    ∃ (v : PostVersion) (a : Assembled),
      v ∈ post.Versions ∧ v.LangId = locale.Id ∧ lastVersion locale post.Versions = some v ∧
      assemble env route post locale = some a ∧
      a.pageRouteJson = jsonMarshal a.pageRouteObj ∧
      a.localeFolder = Go.ReplaceAll locale.Path ['/'] [] ∧
      GeneratePage env route post locale
        = some
            ((if a.localeFolder ≠ [] then
                [FsOp.Mkdir (Go.Join [env.config.BuildPath, a.localeFolder])]
              else [])
              ++ [FsOp.CreateFile
                    (Go.Join [env.config.BuildPath, a.localeFolder, "post".toList,
                      v.Permalink ++ ".html".toList]) a.pageHtml,
                  FsOp.CreateFile
                    (Go.Join [env.config.BuildPath, a.localeFolder, "post".toList,
                      v.Permalink ++ ".json".toList]) a.pageRouteJson]
              ++ (post.Versions.filter (fun w => w.LangId ≠ locale.Id)).map (fun w =>
                    FsOp.CreateFile
                      (Go.Join [env.config.BuildPath, a.localeFolder, "post".toList,
                        w.Permalink ++ ".html".toList])
                      (GetRedirectScript (v.Permalink ++ ".html".toList)))) := by
  obtain ⟨v, hlast⟩ := lastVersion_some locale post.Versions hv
  obtain ⟨hmem, hlang⟩ := lastVersion_mem locale post.Versions v hlast
  have hcv : (versionAndTitle env route post locale).1 = v := by
    simp only [versionAndTitle, hpost, if_true, versionLoop_eq, hlast]
  have hn : ¬ ("post".toList = "normal".toList) := by decide
  refine ⟨v, _, hmem, hlang, hlast, assemble_eq env route post locale, rfl, rfl, ?_⟩
  simp only [GeneratePage, assemble_eq, pageWrites, hpost, hn, if_false, if_true,
    stubWrites_eq, hcv, List.append_assoc]

/-- C5: the exported scripts are, in the order of the route's structure and
of each module's declarations, the script paths of the modules of the ids the
route names, each followed once by `?bId=` and the build id; none is dropped,
so there are as many as script declarations. -/
theorem exported_scripts (env : Env) (route : Route) (post : Post) (locale : Locale) :
    ∃ a : Assembled, assemble env route post locale = some a ∧
      sliceList a.pageRouteObj.Scripts
        = (route.Structure.flatMap (fun e =>
            (env.modules.filter (fun m => m.Id = e.ModuleId)).flatMap (fun m => m.Scripts))).map
            (fun script => script ++ "?bId=".toList ++ env.buildUUID) ∧
      (sliceList a.pageRouteObj.Scripts).length
        = (route.Structure.map (fun e =>
            ((env.modules.filter (fun m => m.Id = e.ModuleId)).map
              (fun m => m.Scripts.length)).sum)).sum := by
  have hlist : sliceList (exportedPage env route post locale).Scripts
      = (route.Structure.flatMap (fun e =>
            (env.modules.filter (fun m => m.Id = e.ModuleId)).flatMap (fun m => m.Scripts))).map
            (fun script => script ++ "?bId=".toList ++ env.buildUUID) := by
    have hms : (route.Structure.flatMap (fun e =>
        (env.modules.filter (fun m => m.Id = e.ModuleId)).flatMap (fun m => m.Scripts)))
        = mainScriptsOf env route := rfl
    have h1 := sliceList_appends (mainScriptsOf env route) none
    rw [hms]
    simp only [exportedPage]
    cases hs : sliceAppends none (mainScriptsOf env route) with
    | none =>
      rw [hs] at h1
      simp only [sliceList, Option.getD_none, List.nil_append] at h1
      simp only [Option.map_none', sliceList, Option.getD_none, ← h1, List.map_nil]
    | some l =>
      rw [hs] at h1
      simp only [sliceList, Option.getD_some, Option.getD_none, List.nil_append] at h1
      simp only [Option.map_some', sliceList, Option.getD_some, h1]
  refine ⟨_, assemble_eq env route post locale, hlist, ?_⟩
  simp only [hlist, List.length_map, List.flatMap, List.length_flatten, List.map_map]
  congr 2
  funext e
  simp only [Function.comp, List.length_flatten, List.map_map]
  rfl

theorem cut_before_free (pat : Str) (hp : pat ≠ []) : ∀ (s a b : Str),
    Go.Cut pat s = some (a, b) → ¬ pat <:+: a := by
  intro s
  induction s with
  | nil =>
    intro a b h
    simp [Go.Cut, hp] at h
  | cons c s ih =>
    intro a b h
    rw [cut_cons] at h
    split at h
    · simp only [Option.some.injEq, Prod.mk.injEq] at h
      rw [← h.1]
      intro hi
      exact hp (List.eq_nil_of_infix_nil hi)
    · rename_i hpre
      cases hc : Go.Cut pat s with
      | none => simp [hc] at h
      | some q =>
        obtain ⟨a1, b1⟩ := q
        simp only [hc, Option.some.injEq, Prod.mk.injEq] at h
        obtain ⟨rfl, rfl⟩ := h
        intro hi
        rw [List.infix_cons_iff] at hi
        rcases hi with hi | hi
        · apply hpre
          rw [List.isPrefixOf_iff_prefix]
          have hs := cut_sound pat s a1 b1 hc
          rw [hs]
          obtain ⟨t, ht⟩ := hi
          exact ⟨t ++ (pat ++ b1), by rw [← List.append_assoc, ht]; simp⟩
        · exact ih a1 b1 hc hi

/-- What `ReplaceAll` does with a non-empty `old`: the text is cut into parts
at occurrences of `old`, no part holds `old`, and the parts are joined again
by `new`. -/
theorem replaceAll_parts (old new : Str) (ho : old ≠ []) : ∀ (n : Nat) (s : Str),
    s.length ≤ n →
    ∃ parts : List Str, parts ≠ [] ∧ s = List.intercalate old parts ∧
      (∀ p ∈ parts, ¬ old <:+: p) ∧ Go.ReplaceAll s old new = List.intercalate new parts := by
  intro n
  induction n with
  | zero =>
    intro s hs
    have : s = [] := List.length_eq_zero.mp (Nat.le_zero.mp hs)
    subst this
    refine ⟨[[]], by simp, by simp [List.intercalate], ?_, ?_⟩
    · intro p hp hi
      simp only [List.mem_singleton] at hp
      subst hp
      exact ho (List.eq_nil_of_infix_nil hi)
    · rw [replaceAll_unfold _ _ _ ho]
      simp [Go.Cut, ho, List.intercalate]
  | succ n ih =>
    intro s hs
    rw [replaceAll_unfold _ _ _ ho]
    cases hc : Go.Cut old s with
    | none =>
      refine ⟨[s], by simp, by simp [List.intercalate], ?_, by simp [List.intercalate]⟩
      intro p hp hi
      simp only [List.mem_singleton] at hp
      subst hp
      obtain ⟨x, y, hxy⟩ := hi
      exact cut_none old p hc x y hxy.symm
    | some q =>
      obtain ⟨a, b⟩ := q
      have hb := cut_length old ho s a b hc
      obtain ⟨parts, hne, hs2, hfree, hrep⟩ := ih b (by omega)
      cases parts with
      | nil => exact absurd rfl hne
      | cons p ps =>
        refine ⟨a :: p :: ps, by simp, ?_, ?_, ?_⟩
        · rw [cut_sound old s a b hc, hs2]
          simp [List.intercalate, List.append_assoc]
        · intro x hx
          rw [List.mem_cons] at hx
          rcases hx with rfl | hx
          · exact cut_before_free old ho s _ b hc
          · exact hfree x hx
        · simp only [hrep]
          simp [List.intercalate, List.append_assoc]

theorem filter_of_nodup (ids : List Module) (i : Str) (h : (ids.map (fun m => m.Id)).Nodup) :
    ids.filter (fun m => m.Id = i) = (ids.find? (fun m => m.Id = i)).toList := by
  induction ids with
  | nil => rfl
  | cons m rest ih =>
    rw [List.map_cons, List.nodup_cons] at h
    by_cases hm : m.Id = i
    · have hnil : rest.filter (fun m => decide (m.Id = i)) = [] := by
        rw [List.filter_eq_nil_iff]
        intro x hx hxi
        apply h.1
        rw [List.mem_map]
        exact ⟨x, hx, by rw [hm]; simpa using hxi⟩
      simp [List.filter_cons, List.find?_cons, hm, hnil]
    · simp [List.filter_cons, List.find?_cons, hm, ih h.2]

theorem filter_of_length (ids : List Module) (i : Str)
    (h : (ids.filter (fun m => m.Id = i)).length ≤ 1) :
    ids.filter (fun m => m.Id = i) = (ids.find? (fun m => m.Id = i)).toList := by
  induction ids with
  | nil => rfl
  | cons m rest ih =>
    by_cases hm : m.Id = i
    · simp only [List.filter_cons, hm, decide_True, if_true, List.length_cons] at h
      have hnil : rest.filter (fun m => decide (m.Id = i)) = [] :=
        List.length_eq_zero.mp (by omega)
      simp [List.filter_cons, List.find?_cons, hm, hnil]
    · simp only [List.filter_cons, hm, decide_False] at h
      simp [List.filter_cons, List.find?_cons, hm, ih (by simpa using h)]

/-- C7: with unique module ids, the exported html is the concatenation, in
the order of the route's structure, of the locale-resolved text of each
referenced module (nothing for a missing one), cut at the occurrences of
`<?gen WEB-ROOT ?>` and joined again by the web root followed by the locale's
path; the base template plays no part. -/
theorem exported_html (env : Env) (route : Route) (post : Post) (locale : Locale)
    (hu : (env.modules.map (fun m => m.Id)).Nodup) :
    ∃ (a : Assembled) (text : Module → Str) (parts : List Str),
      assemble env route post locale = some a ∧
      (∀ m, ReadFileLang env.files (Go.Join [env.config.DataPath, "/modules/".toList, m.Src])
          locale.Id = some (text m)) ∧
      route.Structure.flatMap (fun e =>
          match env.modules.find? (fun m => m.Id = e.ModuleId) with
          | none => []
          | some m => text m)
        = List.intercalate tokWebRoot parts ∧
      (∀ p ∈ parts, ¬ tokWebRoot <:+: p) ∧
      a.pageRouteObj.Html = List.intercalate (env.config.WebRoot ++ locale.Path) parts ∧
      a.pageRouteObj.Html
        = Go.ReplaceAll
            (route.Structure.flatMap (fun e =>
              match env.modules.find? (fun m => m.Id = e.ModuleId) with
              | none => []
              | some m => text m))
            tokWebRoot (env.config.WebRoot ++ locale.Path) := by
  have hmain : mainHtmlOf env route locale
      = route.Structure.flatMap (fun e =>
          match env.modules.find? (fun m => m.Id = e.ModuleId) with
          | none => []
          | some m => moduleText env locale m) := by
    unfold mainHtmlOf
    apply List.flatMap_congr
    intro e _
    unfold entryHtml referenced
    rw [filter_of_nodup env.modules e.ModuleId hu]
    cases env.modules.find? (fun m => decide (m.Id = e.ModuleId)) <;> rfl
  obtain ⟨parts, _, hs, hfree, hrep⟩ :=
    replaceAll_parts tokWebRoot (env.config.WebRoot ++ locale.Path) (by decide) _
      (mainHtmlOf env route locale) (Nat.le_refl _)
  refine ⟨_, moduleText env locale, parts, assemble_eq env route post locale,
    fun m => readFileLang_moduleText env locale m, ?_, hfree, ?_, ?_⟩
  · rw [← hmain]
    exact hs
  · exact hrep
  · rw [← hmain]
    rfl

set_option maxRecDepth 100000 in
/-- C10: the exported title of the example home page is `Home | Site`, with
spaces around the separator, not the title, the separator and the site title
one right after the other. -/
theorem page_title_spaces :
    (assemble exEnv exRoute Post.zero exEn).map (fun a => a.pageRouteObj.Title)
        = some "Home | Site".toList ∧
      "Home | Site".toList
        ≠ GetMultiLanguageText exRoute.Title exEn.Id ++ exEnv.config.SiteTitleSeparator
            ++ exEnv.config.SiteTitle := by
  decide

set_option maxRecDepth 100000 in
/-- C6: with two modules of the id `m`, the entry contributes the text of the
second and the scripts of both, where first-match lookup gives the text and
the script of the first. -/
theorem moduleLoop_not_firstMatch :
    moduleLoop exEnvTwice exEn exEntry exEnvTwice.modules ([], [], none)
        = some ("B<?gen WEB-ROOT ?>".toList,
            scriptTag "AB".toList "a.js".toList ++ scriptTag "AB".toList "b.js".toList,
            some ["a.js".toList, "b.js".toList]) ∧
      firstMatch exEnvTwice exEn exEntry none
        = some ("A".toList, scriptTag "AB".toList "a.js".toList, some ["a.js".toList]) ∧
      moduleLoop exEnvTwice exEn exEntry exEnvTwice.modules ([], [], none)
        ≠ firstMatch exEnvTwice exEn exEntry none := by
  refine ⟨by decide, by decide, by decide⟩

set_option maxRecDepth 100000 in
/-- C7, at the example site: the exported html of the home page in Italian. -/
theorem exported_html_witness :
    (exEnv.modules.map (fun m => m.Id)).Nodup ∧
      ∃ a : Assembled, assemble exEnv exRoute Post.zero exIt = some a ∧
        a.pageRouteObj.Html = "AciaoB/root/it".toList := by
  obtain ⟨a, text, parts, ha, _, _, _, _, _⟩ :=
    exported_html exEnv exRoute Post.zero exIt (by decide)
  have hd : (assemble exEnv exRoute Post.zero exIt).map (fun a => a.pageRouteObj.Html)
      = some "AciaoB/root/it".toList := by decide
  refine ⟨by decide, a, ha, ?_⟩
  rw [ha] at hd
  simpa using hd

set_option maxRecDepth 100000 in
/-- C4, at the example site: for the Italian locale the page is written at
`post/p-it.html`, the sidecar at `post/p-it.json`, and the stub at
`post/p-en.html` leads to `p-it.html`. -/
theorem generatePage_post_witness :
    (exPostRoute.Type_ = "post".toList ∧ ∃ v ∈ exPost.Versions, v.LangId = exIt.Id) ∧
      ∃ a : Assembled, assemble exEnv exPostRoute exPost exIt = some a ∧
        GeneratePage exEnv exPostRoute exPost exIt
          = some
              [FsOp.Mkdir "build/it".toList,
               FsOp.CreateFile "build/it/post/p-it.html".toList a.pageHtml,
               FsOp.CreateFile "build/it/post/p-it.json".toList a.pageRouteJson,
               FsOp.CreateFile "build/it/post/p-en.html".toList
                 (GetRedirectScript "p-it.html".toList)] := by
  have hv : ∃ v ∈ exPost.Versions, v.LangId = exIt.Id :=
    ⟨⟨"it".toList, "p-it".toList, "p-it.html".toList, "Ciao".toList⟩, by decide, by decide⟩
  obtain ⟨v, a, _, _, hlast, ha, _, hlf, hg⟩ :=
    generatePage_post exEnv exPostRoute exPost exIt (by decide) hv
  have hv2 : v = ⟨"it".toList, "p-it".toList, "p-it.html".toList, "Ciao".toList⟩ := by
    have : lastVersion exIt exPost.Versions
        = some ⟨"it".toList, "p-it".toList, "p-it.html".toList, "Ciao".toList⟩ := by decide
    rw [this] at hlast
    exact (Option.some.inj hlast).symm
  have hlf2 : a.localeFolder = "it".toList := by
    rw [hlf]
    decide
  refine ⟨⟨by decide, hv⟩, a, ha, ?_⟩
  rw [hg, hlf2, hv2]
  rfl

set_option maxRecDepth 100000 in
/-- C8, at the source of the spec: `ABCE` for `en`, `ACDE` for `it`, `ACE`
for `fr`. -/
theorem resolveInline_segments_witness :
    ('<' ∉ "A".toList ∧
      ∀ g ∈ [Segment.mk "en".toList "B".toList "C".toList,
             Segment.mk "it".toList "D".toList "E".toList], g.Plain) ∧
      segSource "A".toList [Segment.mk "en".toList "B".toList "C".toList,
          Segment.mk "it".toList "D".toList "E".toList]
        = "A<? START-LANG [en] ?>B<? END-LANG ?>C<? START-LANG [it] ?>D<? END-LANG ?>E".toList ∧
      resolveInline
          "A<? START-LANG [en] ?>B<? END-LANG ?>C<? START-LANG [it] ?>D<? END-LANG ?>E".toList
          "en".toList = some "ABCE".toList ∧
      resolveInline
          "A<? START-LANG [en] ?>B<? END-LANG ?>C<? START-LANG [it] ?>D<? END-LANG ?>E".toList
          "it".toList = some "ACDE".toList ∧
      resolveInline
          "A<? START-LANG [en] ?>B<? END-LANG ?>C<? START-LANG [it] ?>D<? END-LANG ?>E".toList
          "fr".toList = some "ACE".toList := by
  have hp : ∀ g ∈ [Segment.mk "en".toList "B".toList "C".toList,
      Segment.mk "it".toList "D".toList "E".toList], g.Plain := by
    intro g hg
    simp only [List.mem_cons, List.mem_singleton, List.not_mem_nil, or_false] at hg
    rcases hg with rfl | rfl
    · exact ⟨⟨'e', 'n', rfl, by decide, by decide⟩, by decide, by decide⟩
    · exact ⟨⟨'i', 't', rfl, by decide, by decide⟩, by decide, by decide⟩
  exact ⟨⟨by decide, hp⟩, by decide,
    resolveInline_segments "A".toList _ "en".toList (by decide) hp,
    resolveInline_segments "A".toList _ "it".toList (by decide) hp,
    resolveInline_segments "A".toList _ "fr".toList (by decide) hp⟩

set_option maxRecDepth 100000 in
/-- C1: on `exFragments` and the language `fr` the regions are the two `en`
regions and the final `fr` region; region by region the result is
`<? START-LANG [fr] ?>Z<? END-LANG ?>Z`, while `ReadFileLang`, which replaces the
text of each found region wherever it then stands, returns `ZZ`. -/
theorem resolveInline_not_regionwise :
    FindAllString exFragments
        = ["<? START-LANG [en] ?>q<? END-LANG ?>".toList,
           "<? START-LANG [en] ?>q<? END-LANG ?>".toList,
           "<? START-LANG [fr] ?>Z<? END-LANG ?>".toList] ∧
      resolveRegions exFragments "fr".toList = "<? START-LANG [fr] ?>Z<? END-LANG ?>Z".toList ∧
      resolveInline exFragments "fr".toList = some "ZZ".toList := by
  refine ⟨by decide, by decide, by decide⟩

theorem resolveRegionsLoop_fuel (langId : Str) : ∀ (n : Nat) (s : Str), s.length ≤ n →
    resolveRegionsLoop langId n s =
      match findMatch s with
      | none => s
      | some m =>
        m.before ++ (if m.code = langId then m.inner else [])
          ++ resolveRegionsLoop langId m.after.length m.after := by
  intro n
  induction n using Nat.strong_induction_on with
  | _ n ih =>
    intro s hs
    cases n with
    | zero =>
      have : s = [] := List.length_eq_zero.mp (Nat.le_zero.mp hs)
      subst this
      simp [resolveRegionsLoop, findMatch]
    | succ n =>
      simp only [resolveRegionsLoop]
      cases hf : findMatch s with
      | none => rfl
      | some m =>
        have hb := findMatch_after_length s m hf
        simp only
        have e1 := ih n (Nat.lt_succ_self n) m.after (by omega)
        have e2 := ih m.after.length (by omega) m.after (Nat.le_refl _)
        rw [e1, ← e2]

/-- On a source built from plain segments the region-wise reading gives the
text `t0 y1 t1 ... yn tn`, as `ReadFileLang` does. -/
theorem resolveRegions_segments : ∀ (segs : List Segment), (∀ g ∈ segs, g.Plain) →
    ∀ (t0 langId : Str), '<' ∉ t0 →
      resolveRegions (segSource t0 segs) langId = segResolved langId t0 segs := by
  intro segs
  induction segs with
  | nil =>
    intro _ t0 langId ht
    have := findMatch_skip t0 [] ht
    rw [List.append_nil] at this
    unfold resolveRegions
    rw [resolveRegionsLoop_fuel langId _ _ (Nat.le_refl _)]
    simp only [segSource, segResolved, List.flatMap_nil, List.append_nil, this, findMatch]
    rfl
  | cons g gs ih =>
    intro hall t0 langId ht
    have hg : g.Plain := hall g (List.mem_cons_self _ _)
    have hgs : ∀ h ∈ gs, h.Plain := fun h hh => hall h (List.mem_cons_of_mem _ hh)
    obtain ⟨⟨d1, d2, hcode, hd1, hd2⟩, hgi, hgp⟩ := hg
    have e : segSource t0 (g :: gs) = t0 ++ (region [d1, d2] g.inner ++ segSource g.plain gs) := by
      simp [segSource, Segment.source, hcode]
    have ih2 := ih hgs g.plain langId hgp
    unfold resolveRegions at ih2 ⊢
    rw [resolveRegionsLoop_fuel langId _ _ (Nat.le_refl _), e, findMatch_skip t0 _ ht,
      findMatch_region d1 d2 g.inner _ hd1 hd2 hgi]
    simp only [Option.map_some', List.append_nil]
    rw [ih2]
    simp [segResolved, Segment.resolved, hcode, List.append_assoc]

theorem shaped_iff (t : Str) :
    shaped t = true ↔ ∃ body : Str, t = '<' :: '?' :: (body ++ ['>']) ∧ '<' ∉ body ∧ '>' ∉ body := by
  constructor
  · intro h
    unfold shaped at h
    split at h
    · rename_i r
      simp only [Bool.and_eq_true, beq_iff_eq, Bool.not_eq_true'] at h
      obtain ⟨⟨h1, h2⟩, h3⟩ := h
      refine ⟨r.dropLast, ?_, by simpa using h2, by simpa using h3⟩
      have hr : r ≠ [] := by
        intro hr
        rw [hr] at h1
        simp at h1
      have := List.dropLast_append_getLast? '>' (by simpa using h1)
      rw [this]
    · simp at h
  · rintro ⟨body, rfl, h1, h2⟩
    simp [shaped, h1, h2]

theorem inert_tail (c : Char) (w : Str) (h : inert (c :: w) = true) : inert w = true := by
  cases w with
  | nil => rfl
  | cons d s =>
    simp only [inert, Bool.and_eq_true] at h
    exact h.2

theorem inert_head (c : Char) (w rest p : Str) (h : inert (c :: w) = true) :
    ('<' :: '?' :: p).isPrefixOf (c :: w ++ rest) = false := by
  cases w with
  | nil =>
    simp only [inert, bne_iff_ne, ne_eq] at h
    simp [List.isPrefixOf, Ne.symm h]
  | cons d s =>
    simp only [inert, Bool.and_eq_true, Bool.not_eq_true', Bool.and_eq_false_iff, beq_eq_false_iff_ne,
      ne_eq] at h
    simp only [List.cons_append, List.isPrefixOf, Bool.and_eq_false_iff, beq_eq_false_iff_ne, ne_eq]
    rcases h.1 with h1 | h1
    · exact Or.inl (Ne.symm h1)
    · exact Or.inr (Or.inl (Ne.symm h1))

theorem cut_skip_inert (p rest : Str) : ∀ (w : Str), inert w = true →
    Go.Cut ('<' :: '?' :: p) (w ++ rest)
      = (Go.Cut ('<' :: '?' :: p) rest).map (fun q => (w ++ q.1, q.2)) := by
  intro w
  induction w with
  | nil =>
    intro _
    rw [List.nil_append]
    cases Go.Cut ('<' :: '?' :: p) rest <;> simp
  | cons c w ih =>
    intro h
    have h1 : ('<' :: '?' :: p).isPrefixOf (c :: (w ++ rest)) = false := inert_head c w rest p h
    rw [List.cons_append, cut_step _ _ _ h1, ih (inert_tail c w h)]
    cases Go.Cut ('<' :: '?' :: p) rest <;> simp

theorem cut_skip_token (k t rest : Str) (hk : shaped k = true) (ht : shaped t = true)
    (hne : k ≠ t) :
    Go.Cut t (k ++ rest) = (Go.Cut t rest).map (fun q => (k ++ q.1, q.2)) := by
  obtain ⟨kb, rfl, hk1, hk2⟩ := (shaped_iff k).mp hk
  obtain ⟨tb, rfl, ht1, ht2⟩ := (shaped_iff t).mp ht
  have h0 : ('<' :: '?' :: (tb ++ ['>'])).isPrefixOf ('<' :: ('?' :: (kb ++ ['>']) ++ rest)) = false := by
    cases hp : ('<' :: '?' :: (tb ++ ['>'])).isPrefixOf ('<' :: ('?' :: (kb ++ ['>']) ++ rest)) with
    | false => rfl
    | true =>
      rw [List.isPrefixOf_iff_prefix, List.cons_prefix_cons, List.cons_append,
        List.cons_prefix_cons] at hp
      have hp2 : tb ++ '>' :: [] <+: kb ++ '>' :: rest := by
        simpa [List.append_assoc] using hp.2.2
      have := prefix_free_eq '>' tb kb [] rest ht2 hk2 hp2
      exact absurd (by rw [this]) hne
  have hfree : '<' ∉ '?' :: (kb ++ ['>']) := by
    simp [hk1]
  have e : '<' :: '?' :: (kb ++ ['>']) ++ rest = '<' :: ('?' :: (kb ++ ['>']) ++ rest) := rfl
  rw [e, cut_step _ _ _ h0, cut_skip '<' _ _ rest hfree]
  cases Go.Cut ('<' :: '?' :: (tb ++ ['>'])) rest <;> simp

theorem replaceAll_of_cut (old new w rest : Str) (ho : old ≠ [])
    (h : Go.Cut old (w ++ rest) = (Go.Cut old rest).map (fun q => (w ++ q.1, q.2))) :
    Go.ReplaceAll (w ++ rest) old new = w ++ Go.ReplaceAll rest old new := by
  rw [replaceAll_unfold _ old new ho, replaceAll_unfold rest old new ho, h]
  cases Go.Cut old rest with
  | none => simp
  | some q => simp

theorem shaped_ne_nil (t : Str) (h : shaped t = true) : t ≠ [] := by
  rintro rfl
  simp [shaped] at h

/-- `ReplaceAll` on a template replaces the tokens equal to `old`, and nothing
else. -/
theorem replaceAll_flatten (old new : Str) (ho : shaped old = true) :
    ∀ (atoms : List Atom), (∀ a ∈ atoms, a.ok [] = true) →
      Go.ReplaceAll (flatten atoms) old new
        = atoms.flatMap (fun a => if a = Atom.token old then new else a.str) := by
  have hne := shaped_ne_nil old ho
  obtain ⟨ob, hob, _, _⟩ := (shaped_iff old).mp ho
  intro atoms
  induction atoms with
  | nil =>
    intro _
    rw [replaceAll_unfold _ old new hne]
    simp [flatten, Go.Cut, hne]
  | cons a rest ih =>
    intro hall
    have ha := hall a (List.mem_cons_self _ _)
    have hrest : ∀ b ∈ rest, b.ok [] = true := fun b hb => hall b (List.mem_cons_of_mem _ hb)
    have e : flatten (a :: rest) = a.str ++ flatten rest := by simp [flatten]
    rw [e, List.flatMap_cons]
    cases a with
    | text s =>
      have hi : inert s = true := by simpa [Atom.ok] using ha
      have hc := cut_skip_inert (ob ++ ['>']) (flatten rest) s hi
      rw [← hob] at hc
      simp only [Atom.str, reduceCtorEq, if_false]
      rw [replaceAll_of_cut old new s _ hne hc, ih hrest]
      rfl
    | token k =>
      have hk : shaped k = true := by
        simp only [Atom.ok, Bool.and_eq_true] at ha
        exact ha.1
      by_cases hkt : k = old
      · subst hkt
        simp only [Atom.str, if_true]
        rw [replaceAll_here _ _ _ hne, ih hrest]
        rfl
      · have hc := cut_skip_token k old (flatten rest) hk ho hkt
        have hne2 : Atom.token k ≠ Atom.token old := by
          intro h
          exact hkt (Atom.token.inj h)
        simp only [Atom.str, hne2, if_false]
        rw [replaceAll_of_cut old new k _ hne hc, ih hrest]
        rfl

theorem ok_mono (E F : List Str) (hsub : ∀ t ∈ F, t ∈ E) (a : Atom) (h : a.ok E = true) :
    a.ok F = true := by
  cases a with
  | text s => exact h
  | token t =>
    simp only [Atom.ok, Bool.and_eq_true, Bool.not_eq_true', List.contains_eq_any_beq,
      List.any_eq_false, beq_iff_eq] at h ⊢
    refine ⟨h.1, ?_⟩
    intro x hx hxt
    exact h.2 x (hsub x hx) hxt

theorem ok_not_mem (E : List Str) (t : Str) (h : (Atom.token t).ok E = true) : t ∉ E := by
  simp only [Atom.ok, Bool.and_eq_true, Bool.not_eq_true', List.contains_eq_any_beq,
    List.any_eq_false, beq_iff_eq] at h
  intro hm
  exact h.2 t hm rfl

theorem cut_flatten_none (t : Str) (ht : shaped t = true) :
    ∀ (atoms : List Atom), (∀ a ∈ atoms, a.ok [t] = true) → Go.Cut t (flatten atoms) = none := by
  have hne := shaped_ne_nil t ht
  obtain ⟨tb, htb, _, _⟩ := (shaped_iff t).mp ht
  intro atoms
  induction atoms with
  | nil =>
    intro _
    simp [flatten, Go.Cut, hne]
  | cons a rest ih =>
    intro hall
    have ha := hall a (List.mem_cons_self _ _)
    have hrest : ∀ b ∈ rest, b.ok [t] = true := fun b hb => hall b (List.mem_cons_of_mem _ hb)
    have e : flatten (a :: rest) = a.str ++ flatten rest := by simp [flatten]
    rw [e]
    cases a with
    | text s =>
      have hi : inert s = true := by simpa [Atom.ok] using ha
      have hc := cut_skip_inert (tb ++ ['>']) (flatten rest) s hi
      rw [← htb] at hc
      simp only [Atom.str]
      rw [hc, ih hrest]
      rfl
    | token k =>
      have hk : shaped k = true := by
        simp only [Atom.ok, Bool.and_eq_true] at ha
        exact ha.1
      have hkt : k ≠ t := by
        intro h
        exact ok_not_mem [t] k ha (by simp [h])
      simp only [Atom.str]
      rw [cut_skip_token k t (flatten rest) hk ht hkt, ih hrest]
      rfl

/-- An excluded token does not occur in a templated text. -/
theorem templated_absent (E : List Str) (s t : Str) (hs : Templated E s) (ht : shaped t = true)
    (hmem : t ∈ E) : ¬ t <:+: s := by
  obtain ⟨atoms, rfl, hok⟩ := hs
  have hc := cut_flatten_none t ht atoms
    (fun a ha => ok_mono E [t] (by simpa using hmem) a (hok a ha))
  rintro ⟨x, y, hxy⟩
  exact cut_none t _ hc x y hxy.symm

/-- A pass over a templated text leaves a templated text without the token of
the pass. -/
theorem templated_replace (E : List Str) (old new s : Str) (ho : shaped old = true)
    (hs : Templated E s) (hn : Templated (old :: E) new) :
    Templated (old :: E) (Go.ReplaceAll s old new) := by
  obtain ⟨atoms, rfl, hok⟩ := hs
  obtain ⟨vatoms, rfl, hvok⟩ := hn
  refine ⟨atoms.flatMap (fun a => if a = Atom.token old then vatoms else [a]), ?_, ?_⟩
  · rw [replaceAll_flatten old _ ho atoms
      (fun a ha => ok_mono E [] (by simp) a (hok a ha))]
    unfold flatten
    rw [List.flatMap_assoc]
    apply List.flatMap_congr
    intro a _
    split <;> simp
  · intro b hb
    rw [List.mem_flatMap] at hb
    obtain ⟨a, ha, hba⟩ := hb
    split at hba
    · exact hvok b hba
    · rename_i hne
      simp only [List.mem_singleton] at hba
      subst hba
      have hbok := hok b ha
      cases b with
      | text s => exact hbok
      | token t =>
        have hto : t ≠ old := fun h => hne (by rw [h])
        simp only [Atom.ok, Bool.and_eq_true, Bool.not_eq_true', List.contains_eq_any_beq,
          List.any_eq_false, beq_iff_eq] at hbok ⊢
        refine ⟨hbok.1, ?_⟩
        intro x hx hxt
        rw [List.mem_cons] at hx
        rcases hx with rfl | hx
        · exact hto hxt
        · exact hbok.2 x hx hxt

theorem templated_passes : ∀ (passes : List (Str × Str)) (E : List Str) (s : Str),
    Templated E s → PassesOk E passes →
    Templated (passes.reverse.map Prod.fst ++ E)
      (passes.foldl (fun s p => Go.ReplaceAll s p.1 p.2) s) := by
  intro passes
  induction passes with
  | nil => intro E s hs _; simpa using hs
  | cons p rest ih =>
    intro E s hs hp
    obtain ⟨old, new⟩ := p
    obtain ⟨ho, hn, hrest⟩ := hp
    have := ih (old :: E) _ (templated_replace E old new s ho hs hn) hrest
    simpa [List.foldl_cons] using this

theorem templated_text (E : List Str) (s : Str) (h : inert s = true) : Templated E s :=
  ⟨[Atom.text s], by simp [flatten, Atom.str], by simpa [Atom.ok] using h⟩

theorem pageHtml_passes (env : Env) (route : Route) (post : Post) (locale : Locale) :
    Go.ReplaceAll (substituted env route post locale) tokWebRoot
        (env.config.WebRoot ++ locale.Path)
      = (passesOf env route post locale).foldl (fun s p => Go.ReplaceAll s p.1 p.2)
          env.baseHtml := by
  have hv : ∀ old, passValue env route post locale old
      = tokenValue env route locale (Go.ReplaceAll locale.Path ['/'] [])
          (versionAndTitle env route post locale).2 (versionAndTitle env route post locale).1
          old := by
    intro old
    unfold passValue
    rw [newStringFor_eq]
  simp only [passesOf, List.foldl_append, List.foldl_map, List.foldl_cons, List.foldl_nil, hv]
  rfl

/-- C3, amended: for a `normal` route, when the base template is made of
inert text and placeholder-shaped tokens, and the value of every pass (the
nine tokens in order, then `<?gen WEB-ROOT ?>`) is made so too and holds
neither the token of its own pass nor that of an earlier one, the assembled
HTML holds no token of the fixed set. -/
theorem assemble_no_token (env : Env) (route : Route) (post : Post) (locale : Locale)
    (hn : route.Type_ = "normal".toList)
    (hbase : Templated [] env.baseHtml)
    (hpass : PassesOk [] (passesOf env route post locale)) :
    ∃ a : Assembled, assemble env route post locale = some a ∧
      ∀ t ∈ oldStringsNormal, ¬ t <:+: a.pageHtml := by
  refine ⟨_, assemble_eq env route post locale, ?_⟩
  intro t ht
  have htemp := templated_passes _ [] _ hbase hpass
  rw [← pageHtml_passes] at htemp
  have hold : oldStringsOf route = oldStringsNormal := by
    unfold oldStringsOf
    rw [hn]
    have : ¬ ("normal".toList = "post".toList) := by decide
    simp only [this, if_false]
  have hshaped : shaped t = true := by
    revert t
    decide
  apply templated_absent _ _ t htemp hshaped
  simp only [passesOf, hold, List.append_nil, List.reverse_append, List.map_append,
    List.map_reverse, List.map_map, List.mem_append, List.mem_reverse, List.mem_map]
  exact Or.inr ⟨t, ht, rfl⟩

set_option maxRecDepth 100000 in
/-- C3: the header is put in after the pass of `<?gen PAGE-LANG ?>`, so the token
it holds is still in the assembled HTML of the `normal` route. -/
theorem assemble_keeps_token :
    exRoute.Type_ = "normal".toList ∧
      (assemble exEnvHeader exRoute Post.zero exEn).map (fun a => a.pageHtml)
        = some "<h1><?gen PAGE-LANG ?></h1>".toList ∧
      tokPageLang ∈ oldStringsNormal ∧
      tokPageLang <:+: "<h1><?gen PAGE-LANG ?></h1>".toList := by
  refine ⟨by decide, by decide, by decide, "<h1>".toList, "</h1>".toList, by decide⟩

set_option maxRecDepth 100000 in
/-- C3, at the example site: base template and values are in order, and the
home page in Italian holds none of the nine tokens. -/
theorem assemble_no_token_witness :
    (exRoute.Type_ = "normal".toList ∧ Templated [] exEnv.baseHtml ∧
        PassesOk [] (passesOf exEnv exRoute Post.zero exIt)) ∧
      ∃ a : Assembled, assemble exEnv exRoute Post.zero exIt = some a ∧
        ∀ t ∈ oldStringsNormal, ¬ t <:+: a.pageHtml := by
  have hbase : Templated [] exEnv.baseHtml :=
    ⟨[Atom.text "<title>".toList, Atom.token tokPageTitle, Atom.text "</title>".toList,
      Atom.token tokPageMain], by decide, by decide⟩
  have hp : passesOf exEnv exRoute Post.zero exIt
      = [(tokPageLang, "it".toList), (tokPageReplaceExtension, "true".toList),
         (tokPageTitle, "Home | Site".toList), (tokPageHeader, "<h1>H</h1>".toList),
         (tokPageSidebar, "S".toList),
         (tokPageMain, flatten
            [Atom.text ("Aciao".toList ++ scriptTag "AB".toList "a.js".toList ++ "B".toList),
             Atom.token tokWebRoot, Atom.text (scriptTag "AB".toList "b.js".toList)]),
         (tokPageFooter, "F".toList), (tokBuildId, "AB".toList), (tokBuildTime, "now".toList),
         (tokWebRoot, "/root/it".toList)] := by
    decide
  have hpass : PassesOk [] (passesOf exEnv exRoute Post.zero exIt) := by
    rw [hp]
    refine ⟨by decide, templated_text _ _ (by decide), by decide, templated_text _ _ (by decide),
      by decide, templated_text _ _ (by decide), by decide, templated_text _ _ (by decide),
      by decide, templated_text _ _ (by decide), by decide, ⟨_, rfl, by decide⟩,
      by decide, templated_text _ _ (by decide), by decide, templated_text _ _ (by decide),
      by decide, templated_text _ _ (by decide), by decide, templated_text _ _ (by decide),
      trivial⟩
  exact ⟨⟨by decide, hbase, hpass⟩,
    assemble_no_token exEnv exRoute Post.zero exIt (by decide) hbase hpass⟩

theorem assemble_some (env : Env) (route : Route) (post : Post) (locale : Locale) :
    assemble env route post locale = some (assembled env route post locale) :=
  assemble_eq env route post locale

theorem generatePage_some (env : Env) (route : Route) (post : Post) (locale : Locale) :
    GeneratePage env route post locale
      = some
          ((if (assembled env route post locale).localeFolder ≠ [] then
              [FsOp.Mkdir (Go.Join [env.config.BuildPath,
                (assembled env route post locale).localeFolder])]
            else [])
            ++ pageWrites env route post locale (assembled env route post locale)) := by
  simp only [GeneratePage, assemble_some]
  rfl

theorem pageWrites_normal (env : Env) (route : Route) (post : Post) (locale : Locale)
    (a : Assembled) (hn : route.Type_ = "normal".toList) :
    pageWrites env route post locale a
      = [FsOp.CreateFile (Go.Join [env.config.BuildPath, a.localeFolder,
            a.newFileName ++ ".html".toList]) a.pageHtml,
         FsOp.CreateFile (Go.Join [env.config.BuildPath, a.localeFolder,
            a.newFileName ++ ".json".toList]) a.pageRouteJson]
          ++ route.Aliases.flatMap (aliasWrites env a) := by
  unfold pageWrites
  rw [if_pos hn]

/-- C11: for a `normal` route `GeneratePage` writes the page and its sidecar at
the route's own path and then, for every alias in order, an `.html` and a
`.json` file at the alias path without its leading `/`, with the same two
contents: the full page pair, no redirect stub. -/
theorem generatePage_aliases (env : Env) (route : Route) (post : Post) (locale : Locale)
    (hn : route.Type_ = "normal".toList) :
    ∃ a : Assembled, assemble env route post locale = some a ∧
      a.localeFolder = Go.ReplaceAll locale.Path ['/'] [] ∧
      GeneratePage env route post locale
        = some
            ((if a.localeFolder ≠ [] then
                [FsOp.Mkdir (Go.Join [env.config.BuildPath, a.localeFolder])]
              else [])
              ++ [FsOp.CreateFile (Go.Join [env.config.BuildPath, a.localeFolder,
                    a.newFileName ++ ".html".toList]) a.pageHtml,
                  FsOp.CreateFile (Go.Join [env.config.BuildPath, a.localeFolder,
                    a.newFileName ++ ".json".toList]) a.pageRouteJson]
              ++ route.Aliases.flatMap (fun aliasPath =>
                  [FsOp.CreateFile (Go.Join [env.config.BuildPath, a.localeFolder,
                      Go.TrimPrefix aliasPath ['/'] ++ ".html".toList]) a.pageHtml,
                   FsOp.CreateFile (Go.Join [env.config.BuildPath, a.localeFolder,
                      Go.TrimPrefix aliasPath ['/'] ++ ".json".toList]) a.pageRouteJson])) ∧
      ∀ aliasPath ∈ route.Aliases, ∀ ops, GeneratePage env route post locale = some ops →
        FsOp.CreateFile (Go.Join [env.config.BuildPath, a.localeFolder,
            Go.TrimPrefix aliasPath ['/'] ++ ".html".toList]) a.pageHtml ∈ ops ∧
        FsOp.CreateFile (Go.Join [env.config.BuildPath, a.localeFolder,
            Go.TrimPrefix aliasPath ['/'] ++ ".json".toList]) a.pageRouteJson ∈ ops := by
  have hg := generatePage_some env route post locale
  refine ⟨assembled env route post locale, assemble_some env route post locale, rfl, ?_, ?_⟩
  · rw [hg, pageWrites_normal _ _ _ _ _ hn]
    simp only [List.append_assoc]
    rfl
  · intro aliasPath hmem ops hops
    rw [hg, pageWrites_normal _ _ _ _ _ hn] at hops
    have := Option.some.inj hops
    subst this
    have hin : ∀ op ∈ aliasWrites env (assembled env route post locale) aliasPath,
        op ∈ route.Aliases.flatMap (aliasWrites env (assembled env route post locale)) :=
      fun op hop => List.mem_flatMap.mpr ⟨aliasPath, hmem, hop⟩
    constructor
    · apply List.mem_append_right
      apply List.mem_append_right
      apply hin
      simp [aliasWrites]
    · apply List.mem_append_right
      apply List.mem_append_right
      apply hin
      simp [aliasWrites]

set_option maxRecDepth 100000 in
/-- C11, at the example site: the home page in Italian, written at `index` and
again at the alias `home`. -/
theorem generatePage_aliases_witness :
    exRoute.Type_ = "normal".toList ∧
      ∃ a : Assembled, assemble exEnv exRoute Post.zero exIt = some a ∧
        GeneratePage exEnv exRoute Post.zero exIt
          = some
              [FsOp.Mkdir "build/it".toList,
               FsOp.CreateFile "build/it/index.html".toList a.pageHtml,
               FsOp.CreateFile "build/it/index.json".toList a.pageRouteJson,
               FsOp.CreateFile "build/it/home.html".toList a.pageHtml,
               FsOp.CreateFile "build/it/home.json".toList a.pageRouteJson] := by
  obtain ⟨a, ha, hlf, hg, _⟩ := generatePage_aliases exEnv exRoute Post.zero exIt (by decide)
  have hlf2 : a.localeFolder = "it".toList := by
    rw [hlf]
    decide
  have hfn : a.newFileName = "index".toList := by
    have h := assemble_eq exEnv exRoute Post.zero exIt
    rw [ha] at h
    rw [Option.some.inj h]
    decide
  refine ⟨by decide, a, ha, ?_⟩
  rw [hg, hlf2, hfn]
  rfl

/-- C13: the filename stem of a `normal` route is `index` for the path `/`,
which is not the empty string, and for every other path the path without one
leading `/`; the page and its sidecar are written at the stem followed by
`.html` and `.json` in the locale's folder. -/
theorem newFileName_stem (env : Env) (route : Route) (post : Post) (locale : Locale)
    (hn : route.Type_ = "normal".toList) :
    ∃ (a : Assembled) (rest : List FsOp),
      assemble env route post locale = some a ∧
      (route.Path = "/".toList → a.newFileName = "index".toList ∧ a.newFileName ≠ []) ∧
      (∀ tail, route.Path = '/' :: tail → tail ≠ [] → a.newFileName = tail) ∧
      (route.Path.head? ≠ some '/' → a.newFileName = route.Path) ∧
      GeneratePage env route post locale
        = some
            ((if a.localeFolder ≠ [] then
                [FsOp.Mkdir (Go.Join [env.config.BuildPath, a.localeFolder])]
              else [])
              ++ [FsOp.CreateFile (Go.Join [env.config.BuildPath, a.localeFolder,
                    a.newFileName ++ ".html".toList]) a.pageHtml,
                  FsOp.CreateFile (Go.Join [env.config.BuildPath, a.localeFolder,
                    a.newFileName ++ ".json".toList]) a.pageRouteJson]
              ++ rest) := by
  have hfn : (assembled env route post locale).newFileName
      = if route.Path = ['/'] then "index".toList else Go.TrimPrefix route.Path ['/'] := rfl
  refine ⟨assembled env route post locale,
    route.Aliases.flatMap (aliasWrites env (assembled env route post locale)),
    assemble_some env route post locale, ?_, ?_, ?_, ?_⟩
  · intro hp
    have hp2 : route.Path = ['/'] := hp
    rw [hfn, if_pos hp2]
    exact ⟨rfl, by decide⟩
  · intro tail hp ht
    have hne : route.Path ≠ ['/'] := by
      rw [hp]
      intro h
      exact ht (List.cons.inj h).2
    rw [hfn, if_neg hne, hp]
    simp [Go.TrimPrefix, List.isPrefixOf]
  · intro hh
    have hne : route.Path ≠ ['/'] := by
      intro h
      rw [h] at hh
      exact hh rfl
    rw [hfn, if_neg hne]
    cases hp : route.Path with
    | nil => simp [Go.TrimPrefix, List.isPrefixOf]
    | cons c t =>
      rw [hp] at hh
      have hc : c ≠ '/' := by
        intro h
        rw [h] at hh
        exact hh rfl
      simp [Go.TrimPrefix, List.isPrefixOf, Ne.symm hc]
  · rw [generatePage_some, pageWrites_normal _ _ _ _ _ hn]
    simp only [List.append_assoc]

set_option maxRecDepth 100000 in
/-- C13, at the example site: the route of path `/` is written at `index.html`
and `index.json`. -/
theorem newFileName_stem_witness :
    exRoute.Type_ = "normal".toList ∧ exRoute.Path = "/".toList ∧
      ∃ (a : Assembled) (rest : List FsOp), assemble exEnv exRoute Post.zero exEn = some a ∧
        a.newFileName = "index".toList ∧
        GeneratePage exEnv exRoute Post.zero exEn
          = some
              ([FsOp.CreateFile "build/index.html".toList a.pageHtml,
                FsOp.CreateFile "build/index.json".toList a.pageRouteJson] ++ rest) := by
  obtain ⟨a, rest, ha, h1, _, _, hg⟩ := newFileName_stem exEnv exRoute Post.zero exEn (by decide)
  have hfn := (h1 (by decide)).1
  have hlf : a.localeFolder = [] := by
    have h := assemble_eq exEnv exRoute Post.zero exEn
    rw [ha] at h
    rw [Option.some.inj h]
    decide
  refine ⟨by decide, by decide, a, rest, ha, hfn, ?_⟩
  rw [hg, hlf, hfn]
  rfl

set_option maxRecDepth 100000 in
/-- C14: a redirect page is the meta-refresh tag with a delay of one second and
the target as url, the script that replaces the location by the target, and
the paragraph with a link to the target, in this order and with nothing else;
so the target occurs in it at places that do not overlap. -/
theorem redirect_shape (target : Str) :
    GetRedirectScript target
        = ("<meta http-equiv=\"refresh\" content=\"1; url=".toList ++ target ++ "\" />".toList)
          ++ ("<script>window.location.replace(\"".toList ++ target ++ "\");</script>".toList)
          ++ ("<p>You are being redirected, if you still see this page after a white <a href=\"".toList
              ++ target ++ "\">click here</a>.</p>".toList) ∧
      ∃ x y z : Str, GetRedirectScript target = x ++ target ++ y ++ target ++ z := by
  have e1 : "\" /><script>window.location.replace(\"".toList
      = "\" />".toList ++ "<script>window.location.replace(\"".toList := by decide
  have e2 : "\");</script><p>You are being redirected, if you still see this page after a white <a href=\"".toList
      = "\");</script>".toList
        ++ "<p>You are being redirected, if you still see this page after a white <a href=\"".toList := by
    decide
  constructor
  · unfold GetRedirectScript
    rw [e1, e2]
    simp only [List.append_assoc]
  · exact ⟨"<meta http-equiv=\"refresh\" content=\"1; url=".toList,
      "\" /><script>window.location.replace(\"".toList,
      "\");</script><p>You are being redirected, if you still see this page after a white <a href=\"".toList
        ++ target ++ "\">click here</a>.</p>".toList,
      by unfold GetRedirectScript; simp only [List.append_assoc]⟩

set_option maxRecDepth 100000 in
/-- C14, at the target `x.html`. -/
theorem redirect_shape_witness :
    ∃ x y z : Str, GetRedirectScript "x.html".toList
      = x ++ "x.html".toList ++ y ++ "x.html".toList ++ z :=
  (redirect_shape "x.html".toList).2

/-- C17: the exported page and its JSON do not change when the base template,
the header, the sidebar and the footer are replaced by other texts. -/
theorem exported_independent (env : Env) (route : Route) (post : Post) (locale : Locale)
    (base header sidebar footer : Str) :
    ∃ a1 a2 : Assembled,
      assemble env route post locale = some a1 ∧
      assemble { env with baseHtml := base, headerHtml := header, sidebarHtml := sidebar,
                          footerHtml := footer } route post locale = some a2 ∧
      a1.pageRouteObj = a2.pageRouteObj ∧ a1.pageRouteJson = a2.pageRouteJson :=
  ⟨_, _, assemble_some env route post locale, assemble_some _ route post locale, rfl, rfl⟩

set_option maxRecDepth 100000 in
/-- C12: for the example route without a module the JSON sidecar has `null`,
not an array, as its `scripts`. -/
theorem sidecar_scripts_null :
    exRouteEmpty.Type_ = "normal".toList ∧ exRouteEmpty.Structure = [] ∧
      (assemble exEnv exRouteEmpty Post.zero exEn).map (fun a => a.pageRouteObj.Scripts)
        = some none ∧
      (assemble exEnv exRouteEmpty Post.zero exEn).map (fun a => a.pageRouteJson)
        = some "\x7b\"title\":\"Home | Site\",\"html\":\"\",\"scripts\":null\x7d".toList := by
  refine ⟨by decide, by decide, by decide, by decide⟩

set_option maxRecDepth 100000 in
/-- C15: with the permalink `p` for both versions of the post, the page of the
Italian locale is written at `post/p.html` and then the stub of the English
version at the same path: the file ends up as a redirect to `p.html`, itself. -/
theorem post_page_overwritten :
    exPostRoute.Type_ = "post".toList ∧
      lastVersion exIt exPostSame.Versions
        = some ⟨"it".toList, "p".toList, "p-it.html".toList, "Ciao".toList⟩ ∧
      (GeneratePage exEnv exPostRoute exPostSame exIt).map
          (lastWrite "build/it/post/p.html".toList)
        = some (some (GetRedirectScript "p.html".toList)) ∧
      (assemble exEnv exPostRoute exPostSame exIt).map (fun a => a.pageHtml)
        ≠ some (GetRedirectScript "p.html".toList) := by
  refine ⟨by decide, by decide, by decide, by decide⟩

theorem getMultiLanguageText_loop (texts : List MultiLanguageText) (langId : Str)
    (h : texts.head?.map (fun e => e.Id) ≠ some "_any".toList) :
    GetMultiLanguageText texts langId = GetMultiLanguageText.loop langId texts := by
  cases texts with
  | nil => rfl
  | cons first rest =>
    have hf : first.Id ≠ "_any".toList := by
      intro hf
      apply h
      simp [hf]
    simp only [GetMultiLanguageText, hf, if_false]

theorem loop_of_mem (langId : Str) : ∀ (texts : List MultiLanguageText),
    (∀ a ∈ texts, ∀ b ∈ texts, a.Id = langId → b.Id = langId → a.Text = b.Text) →
    ∀ e ∈ texts, e.Id = langId → GetMultiLanguageText.loop langId texts = e.Text := by
  intro texts
  induction texts with
  | nil => intro _ e he; simp at he
  | cons x rest ih =>
    intro hsame e he hid
    by_cases hx : x.Id = langId
    · simp only [GetMultiLanguageText.loop, hx, if_true]
      exact hsame x (List.mem_cons_self _ _) e he hx hid
    · simp only [GetMultiLanguageText.loop, hx, if_false]
      rw [List.mem_cons] at he
      rcases he with rfl | he
      · exact absurd hid hx
      · exact ih (fun a ha b hb => hsame a (List.mem_cons_of_mem _ ha) b (List.mem_cons_of_mem _ hb))
          e he hid

theorem loop_of_not_mem (langId : Str) : ∀ (texts : List MultiLanguageText),
    (∀ e ∈ texts, e.Id ≠ langId) → GetMultiLanguageText.loop langId texts = [] := by
  intro texts
  induction texts with
  | nil => intro _; rfl
  | cons x rest ih =>
    intro h
    have hx := h x (List.mem_cons_self _ _)
    simp only [GetMultiLanguageText.loop, hx, if_false]
    exact ih (fun e he => h e (List.mem_cons_of_mem _ he))

/-- C16, amended: two lists that are permutations of each other, whose first
entries have an id other than `_any`, and whose entries of the language asked
for all carry the same text (so when at most one entry has that id), resolve
to the same text. -/
theorem getMultiLanguageText_perm (texts1 texts2 : List MultiLanguageText) (langId : Str)
    (hperm : texts1.Perm texts2)
    (h1 : texts1.head?.map (fun e => e.Id) ≠ some "_any".toList)
    (h2 : texts2.head?.map (fun e => e.Id) ≠ some "_any".toList)
    (hsame : ∀ a ∈ texts1, ∀ b ∈ texts1, a.Id = langId → b.Id = langId → a.Text = b.Text) :
    GetMultiLanguageText texts1 langId = GetMultiLanguageText texts2 langId := by
  rw [getMultiLanguageText_loop texts1 langId h1, getMultiLanguageText_loop texts2 langId h2]
  have hsame2 : ∀ a ∈ texts2, ∀ b ∈ texts2, a.Id = langId → b.Id = langId → a.Text = b.Text :=
    fun a ha b hb => hsame a (hperm.mem_iff.mpr ha) b (hperm.mem_iff.mpr hb)
  by_cases hex : ∃ e ∈ texts1, e.Id = langId
  · obtain ⟨e, he, hid⟩ := hex
    rw [loop_of_mem langId texts1 hsame e he hid,
      loop_of_mem langId texts2 hsame2 e (hperm.mem_iff.mp he) hid]
  · have hno : ∀ e ∈ texts1, e.Id ≠ langId := fun e he hid => hex ⟨e, he, hid⟩
    rw [loop_of_not_mem langId texts1 hno,
      loop_of_not_mem langId texts2 (fun e he => hno e (hperm.mem_iff.mpr he))]

set_option maxRecDepth 100000 in
/-- C16: two entries of the language `en` with different texts, in the one
order and in the other: the lists are permutations of each other, no first
entry is `_any`, and they resolve to `A` and to `B`. -/
theorem getMultiLanguageText_order :
    List.Perm [MultiLanguageText.mk "en".toList "A".toList, ⟨"en".toList, "B".toList⟩]
        [MultiLanguageText.mk "en".toList "B".toList, ⟨"en".toList, "A".toList⟩] ∧
      ([MultiLanguageText.mk "en".toList "A".toList, ⟨"en".toList, "B".toList⟩].head?.map
          (fun e => e.Id) ≠ some "_any".toList) ∧
      ([MultiLanguageText.mk "en".toList "B".toList, ⟨"en".toList, "A".toList⟩].head?.map
          (fun e => e.Id) ≠ some "_any".toList) ∧
      GetMultiLanguageText [⟨"en".toList, "A".toList⟩, ⟨"en".toList, "B".toList⟩] "en".toList
        = "A".toList ∧
      GetMultiLanguageText [⟨"en".toList, "B".toList⟩, ⟨"en".toList, "A".toList⟩] "en".toList
        = "B".toList ∧
      GetMultiLanguageText [⟨"en".toList, "A".toList⟩, ⟨"en".toList, "B".toList⟩] "en".toList
        ≠ GetMultiLanguageText [⟨"en".toList, "B".toList⟩, ⟨"en".toList, "A".toList⟩] "en".toList := by
  refine ⟨List.Perm.swap _ _ _, by decide, by decide, by decide, by decide, by decide⟩

set_option maxRecDepth 100000 in
/-- C16, at a title in Italian and English, in the one order and in the other,
resolved for `it`. -/
theorem getMultiLanguageText_perm_witness :
    (List.Perm [MultiLanguageText.mk "en".toList "Home".toList, ⟨"it".toList, "Casa".toList⟩]
        [MultiLanguageText.mk "it".toList "Casa".toList, ⟨"en".toList, "Home".toList⟩]) ∧
      GetMultiLanguageText [⟨"en".toList, "Home".toList⟩, ⟨"it".toList, "Casa".toList⟩] "it".toList
        = GetMultiLanguageText [⟨"it".toList, "Casa".toList⟩, ⟨"en".toList, "Home".toList⟩]
            "it".toList ∧
      GetMultiLanguageText [⟨"it".toList, "Casa".toList⟩, ⟨"en".toList, "Home".toList⟩] "it".toList
        = "Casa".toList :=
  ⟨List.Perm.swap _ _ _,
   getMultiLanguageText_perm _ _ "it".toList (List.Perm.swap _ _ _) (by decide) (by decide)
     (by decide),
   by decide⟩

theorem lastVersion_none (locale : Locale) (versions : List PostVersion)
    (h : ∀ v ∈ versions, v.LangId ≠ locale.Id) : lastVersion locale versions = none := by
  unfold lastVersion
  have : versions.filter (fun v => decide (v.LangId = locale.Id)) = [] := by
    rw [List.filter_eq_nil_iff]
    intro v hv
    simpa using h v hv
  rw [this]
  rfl

theorem filter_all {α : Type} (p : α → Bool) (l : List α) (h : ∀ x ∈ l, p x = true) :
    l.filter p = l := by
  induction l with
  | nil => rfl
  | cons x rest ih =>
    rw [List.filter_cons, h x (List.mem_cons_self _ _)]
    simp only [if_true]
    rw [ih (fun y hy => h y (List.mem_cons_of_mem _ hy))]

/-- A page whose referenced modules declare no script exports the nil slice,
which `json.Marshal` writes as `null`. -/
theorem exportedPage_scripts_nil (env : Env) (route : Route) (post : Post) (locale : Locale)
    (h : mainScriptsOf env route = []) :
    (exportedPage env route post locale).Scripts = none ∧
      Go.jsonStrings (exportedPage env route post locale).Scripts = "null".toList := by
  have hs : (exportedPage env route post locale).Scripts = none := by
    simp only [exportedPage, h]
    rfl
  exact ⟨hs, by rw [hs]; rfl⟩

theorem passValue_eq (env : Env) (route : Route) (post : Post) (locale : Locale) (old : Str) :
    passValue env route post locale old
      = tokenValue env route locale (Go.ReplaceAll locale.Path ['/'] [])
          (versionAndTitle env route post locale).2 (versionAndTitle env route post locale).1
          old := by
  unfold passValue
  rw [newStringFor_eq]

theorem oldStrings_head (route : Route) :
    oldStringsOf route
      = tokPageLang :: tokPageReplaceExtension :: tokPageTitle :: (oldStringsOf route).drop 3 := by
  unfold oldStringsOf
  split <;> rfl

theorem versionAndTitle_title (env : Env) (route : Route) (post : Post) (locale : Locale) :
    (versionAndTitle env route post locale).2
      = titleText route post locale ++ " ".toList ++ env.config.SiteTitleSeparator
          ++ " ".toList ++ env.config.SiteTitle := by
  unfold versionAndTitle titleText
  by_cases hp : route.Type_ = "post".toList
  · simp only [hp, if_true, versionLoop_eq]
    cases lastVersion locale post.Versions <;> rfl
  · simp only [hp, if_false]
    rfl

/-- C10, amended: the page title is the title text, a space, the configured
separator, a space and the site title.  It is the exported title, and it is
what the third pass of the substitution loop puts for every `<?gen PAGE-TITLE ?>`
of the text the first two passes have left of the base template; the
remaining passes and the `WEB-ROOT` pass make the page of that. -/
theorem page_title (env : Env) (route : Route) (post : Post) (locale : Locale) :
    (versionAndTitle env route post locale).2
        = titleText route post locale ++ " ".toList ++ env.config.SiteTitleSeparator
            ++ " ".toList ++ env.config.SiteTitle ∧
      (∀ (localeFolder mainHtml : Str) (currentVersion : PostVersion)
          (mainScripts : Option (List Str)),
        newStringFor env route locale localeFolder (versionAndTitle env route post locale).2
            currentVersion tokPageTitle mainHtml mainScripts
          = some ((versionAndTitle env route post locale).2, mainHtml, mainScripts)) ∧
      ∃ a : Assembled, assemble env route post locale = some a ∧
        a.pageRouteObj.Title
          = titleText route post locale ++ " ".toList ++ env.config.SiteTitleSeparator
              ++ " ".toList ++ env.config.SiteTitle ∧
        a.pageHtml
          = (((oldStringsOf route).drop 3).map
                (fun old => (old, passValue env route post locale old))
              ++ [(tokWebRoot, env.config.WebRoot ++ locale.Path)]).foldl
              (fun s p => Go.ReplaceAll s p.1 p.2)
              (Go.ReplaceAll
                (Go.ReplaceAll
                  (Go.ReplaceAll env.baseHtml tokPageLang (Go.ReplaceAll locale.Path ['/'] []))
                  tokPageReplaceExtension (Go.FormatBool env.config.ReplaceFileExtension))
                tokPageTitle
                (titleText route post locale ++ " ".toList ++ env.config.SiteTitleSeparator
                  ++ " ".toList ++ env.config.SiteTitle)) := by
  have ht := versionAndTitle_title env route post locale
  refine ⟨ht, ?_, assembled env route post locale, assemble_some env route post locale, ?_, ?_⟩
  · intro localeFolder mainHtml currentVersion mainScripts
    rw [newStringFor_eq]
    have d : tokPageTitle ≠ tokPageMain := by decide
    have d1 : tokPageTitle ≠ tokPageLang := by decide
    have d2 : tokPageTitle ≠ tokPageReplaceExtension := by decide
    simp only [tokenValue, d, d1, d2, if_false, if_true]
  · exact ht
  · have hp : (assembled env route post locale).pageHtml
        = (passesOf env route post locale).foldl (fun s p => Go.ReplaceAll s p.1 p.2)
            env.baseHtml := pageHtml_passes env route post locale
    have v1 : passValue env route post locale tokPageLang = Go.ReplaceAll locale.Path ['/'] [] := by
      rw [passValue_eq]
      simp only [tokenValue, if_true]
    have v2 : passValue env route post locale tokPageReplaceExtension
        = Go.FormatBool env.config.ReplaceFileExtension := by
      rw [passValue_eq]
      have d1 : tokPageReplaceExtension ≠ tokPageLang := by decide
      simp only [tokenValue, d1, if_false, if_true]
    have v3 : passValue env route post locale tokPageTitle
        = titleText route post locale ++ " ".toList ++ env.config.SiteTitleSeparator
            ++ " ".toList ++ env.config.SiteTitle := by
      rw [passValue_eq]
      have d1 : tokPageTitle ≠ tokPageLang := by decide
      have d2 : tokPageTitle ≠ tokPageReplaceExtension := by decide
      simp only [tokenValue, d1, d2, if_false, if_true]
      exact ht
    rw [hp]
    unfold passesOf
    generalize htl : (oldStringsOf route).drop 3 = tl
    have hh := oldStrings_head route
    rw [htl] at hh
    rw [hh]
    simp only [List.map_cons, List.cons_append, List.foldl_cons, v1, v2, v3]

set_option maxRecDepth 100000 in
/-- C10, at the example site: the page of the Italian version of the example
post carries its title, `Ciao | Site`, in the `title` element and in the
sidecar. -/
theorem page_title_example :
    (assemble exEnv exPostRoute exPost exIt).map
        (fun a => (a.pageRouteObj.Title, a.pageHtml.take 26))
      = some ("Ciao | Site".toList, "<title>Ciao | Site</title>".toList) := by
  decide
theorem firstMatch_eq (env : Env) (locale : Locale) (e : PageStructure)
    (slice : Option (List Str))
    (h : (env.modules.filter (fun m => m.Id = e.ModuleId)).length ≤ 1) :
    firstMatch env locale e slice
      = some (entryHtml env locale e, entryJs env e, sliceAppends slice (entryScripts env e)) := by
  have hf := filter_of_length env.modules e.ModuleId h
  unfold firstMatch entryHtml entryJs entryScripts referenced
  rw [hf]
  cases hfind : env.modules.find? (fun m => decide (m.Id = e.ModuleId)) with
  | none => simp [sliceAppends]
  | some m =>
    have hr := readFileLang_moduleText env locale m
    unfold moduleSrc at hr
    simp only [hr, Option.toList, List.getLast?_singleton, List.flatMap_cons, List.flatMap_nil,
      List.append_nil]

/-- C6, amended: when at most one module has the entry's id, what the entry
contributes is what first-match lookup gives (the text, script tags and script
paths of that module, nothing and no error when there is none): the loop over
the modules computes it, and for a route with the entry in its structure the
value of `<?gen PAGE-MAIN ?>`, `mainHtml` and the script list are those of the
entries before it, followed by the text and the tags, the text, and the paths
of the entry, followed by those of the entries behind it; the page, the
exported html and the exported scripts are made of these. -/
theorem moduleLoop_firstMatch (env : Env) (route : Route) (post : Post) (locale : Locale)
    (e : PageStructure) (before behind : List PageStructure)
    (hs : route.Structure = before ++ e :: behind)
    (h : (env.modules.filter (fun m => m.Id = e.ModuleId)).length ≤ 1) :
    (∀ slice, moduleLoop env locale e env.modules ([], [], slice) = firstMatch env locale e slice ∧
      (firstMatch env locale e slice).isSome = true) ∧
    ∃ (a : Assembled) (ns1 mh1 html js ns mh : Str) (sc1 sc2 sc : Option (List Str)),
      structureLoop env locale before ([], [], none) = some (ns1, mh1, sc1) ∧
      firstMatch env locale e sc1 = some (html, js, sc2) ∧
      structureLoop env locale behind (ns1 ++ (html ++ js), mh1 ++ html, sc2)
        = some (ns, mh, sc) ∧
      structureLoop env locale route.Structure ([], [], none) = some (ns, mh, sc) ∧
      (∃ nsBehind mhBehind : Str,
        ns = ns1 ++ (html ++ js) ++ nsBehind ∧ mh = mh1 ++ html ++ mhBehind) ∧
      assemble env route post locale = some a ∧
      passValue env route post locale tokPageMain = ns ∧
      a.pageHtml
        = (passesOf env route post locale).foldl (fun s p => Go.ReplaceAll s p.1 p.2)
            env.baseHtml ∧
      (tokPageMain, ns) ∈ passesOf env route post locale ∧
      a.pageRouteObj.Html = Go.ReplaceAll mh tokWebRoot (env.config.WebRoot ++ locale.Path) ∧
      a.pageRouteObj.Scripts
        = sc.map (fun l => l.map (fun script => script ++ "?bId=".toList ++ env.buildUUID)) := by
  have hfirst : ∀ slice, moduleLoop env locale e env.modules ([], [], slice)
      = firstMatch env locale e slice := by
    intro slice
    rw [moduleLoop_eq, firstMatch_eq env locale e slice h]
    have hf := filter_of_length env.modules e.ModuleId h
    unfold entryHtml entryJs entryScripts referenced
    cases hfind : (env.modules.filter (fun m => decide (m.Id = e.ModuleId))).getLast? <;> simp
  have hmain : passValue env route post locale tokPageMain = mainValue env route locale := by
    rw [passValue_eq]
    have d1 : tokPageMain ≠ tokPageLang := by decide
    have d2 : tokPageMain ≠ tokPageReplaceExtension := by decide
    have d3 : tokPageMain ≠ tokPageTitle := by decide
    have d4 : tokPageMain ≠ tokPageHeader := by decide
    have d5 : tokPageMain ≠ tokPageSidebar := by decide
    simp only [tokenValue, d1, d2, d3, d4, d5, if_false, if_true]
  have hmem : tokPageMain ∈ oldStringsOf route := by
    unfold oldStringsOf
    split <;> decide
  refine ⟨fun slice => ⟨hfirst slice, by rw [firstMatch_eq env locale e slice h]; rfl⟩,
    assembled env route post locale, _, _, _, _, _, _, _, _, _,
    structureLoop_eq env locale before [] [] none,
    firstMatch_eq env locale e _ h,
    structureLoop_eq env locale behind _ _ _, ?_, ⟨_, _, rfl, rfl⟩,
    assemble_some env route post locale, ?_, pageHtml_passes env route post locale, ?_, ?_, ?_⟩
  · rw [structureLoop_eq, hs]
    simp only [List.flatMap_append, List.flatMap_cons, List.nil_append, List.append_assoc,
      sliceAppends_append]
  · rw [hmain]
    simp only [mainValue, hs, List.flatMap_append, List.flatMap_cons, List.nil_append,
      List.append_assoc]
  · unfold passesOf
    apply List.mem_append_left
    rw [List.mem_map]
    refine ⟨tokPageMain, hmem, ?_⟩
    rw [hmain]
    simp only [mainValue, hs, List.flatMap_append, List.flatMap_cons, List.nil_append,
      List.append_assoc]
  · show (exportedPage env route post locale).Html = _
    simp only [exportedPage, mainHtmlOf, hs, List.flatMap_append, List.flatMap_cons,
      List.nil_append, List.append_assoc]
  · show (exportedPage env route post locale).Scripts = _
    simp only [exportedPage, mainScriptsOf, hs, List.flatMap_append, List.flatMap_cons,
      sliceAppends_append, List.append_assoc]
set_option maxRecDepth 100000 in
/-- C6, at the example site: the module `m` is there once; the entry that
names it contributes its Italian text and its script, first in the value of
`<?gen PAGE-MAIN ?>`. -/
theorem moduleLoop_firstMatch_witness :
    (exRoute.Structure = [] ++ exEntry :: [⟨"n".toList, []⟩, ⟨"none".toList, []⟩] ∧
        (exEnv.modules.filter (fun m => m.Id = exEntry.ModuleId)).length ≤ 1) ∧
      moduleLoop exEnv exIt exEntry exEnv.modules ([], [], none)
        = some ("Aciao".toList, scriptTag "AB".toList "a.js".toList, some ["a.js".toList]) ∧
      passValue exEnv exRoute Post.zero exIt tokPageMain
        = "Aciao".toList ++ scriptTag "AB".toList "a.js".toList ++ "B<?gen WEB-ROOT ?>".toList
            ++ scriptTag "AB".toList "b.js".toList := by
  have h := moduleLoop_firstMatch exEnv exRoute Post.zero exIt exEntry []
    [⟨"n".toList, []⟩, ⟨"none".toList, []⟩] (by decide) (by decide)
  refine ⟨⟨by decide, by decide⟩, ?_, by decide⟩
  rw [(h.1 none).1]
  decide

set_option maxRecDepth 100000 in
/-- C18: the example post has no French version; the page written for the
French locale has the title `Home | Site`, which is the route's resolved
title `Home` followed by the separator and the site title, not `Home`. -/
theorem post_no_version_title :
    exPostRoute.Type_ = "post".toList ∧ (∀ v ∈ exPost.Versions, v.LangId ≠ exFr.Id) ∧
      GetMultiLanguageText exPostRoute.Title exFr.Id = "Home".toList ∧
      (assemble exEnv exPostRoute exPost exFr).map (fun a => a.pageRouteObj.Title)
        = some "Home | Site".toList ∧
      (assemble exEnv exPostRoute exPost exFr).map (fun a => a.pageRouteObj.Title)
        ≠ some (GetMultiLanguageText exPostRoute.Title exFr.Id) := by
  refine ⟨by decide, by decide, by decide, by decide, by decide⟩

/-- C18, amended: for a `post` route and a post without a version in the
locale's language `GeneratePage` does not fail.  The current version stays
empty; the title, exported and put for `<?gen PAGE-TITLE ?>`, is the route's
resolved title, a space, the separator, a space and the site title; the page
is the base template after the nine passes of every route, the pass that puts
the empty string for every `<?gen POST-TITLE ?>`, the pass of
`<?gen POST-CONTENTS ?>` and the `WEB-ROOT` pass; page and sidecar are written at
`post/.html` and `post/.json`, and every version of the post gets, at its
permalink, a redirect stub to `.html`. -/
theorem generatePage_post_no_version (env : Env) (route : Route) (post : Post)
    (locale : Locale) (hpost : route.Type_ = "post".toList)
    (hnone : ∀ v ∈ post.Versions, v.LangId ≠ locale.Id) :
    ∃ a : Assembled, assemble env route post locale = some a ∧
      a.currentVersion = PostVersion.zero ∧
      a.pageRouteObj.Title
        = GetMultiLanguageText route.Title locale.Id ++ " ".toList
            ++ env.config.SiteTitleSeparator ++ " ".toList ++ env.config.SiteTitle ∧
      passValue env route post locale tokPageTitle
        = GetMultiLanguageText route.Title locale.Id ++ " ".toList
            ++ env.config.SiteTitleSeparator ++ " ".toList ++ env.config.SiteTitle ∧
      passValue env route post locale tokPostTitle = [] ∧
      a.pageHtml
        = Go.ReplaceAll
            (Go.ReplaceAll
              (Go.ReplaceAll
                (oldStringsNormal.foldl
                  (fun s old => Go.ReplaceAll s old (passValue env route post locale old))
                  env.baseHtml)
                tokPostTitle [])
              tokPostContents
              (ReadFile env.files (Go.Join [env.config.DataPath, "/posts/".toList, []])))
            tokWebRoot (env.config.WebRoot ++ locale.Path) ∧
      (∀ (localeFolder pageTitle mainHtml : Str) (mainScripts : Option (List Str)),
        newStringFor env route locale localeFolder pageTitle a.currentVersion tokPostTitle
            mainHtml mainScripts = some ([], mainHtml, mainScripts)) ∧
      a.localeFolder = Go.ReplaceAll locale.Path ['/'] [] ∧
      GeneratePage env route post locale
        = some
            ((if a.localeFolder ≠ [] then
                [FsOp.Mkdir (Go.Join [env.config.BuildPath, a.localeFolder])]
              else [])
              ++ [FsOp.CreateFile
                    (Go.Join [env.config.BuildPath, a.localeFolder, "post".toList,
                      ".html".toList]) a.pageHtml,
                  FsOp.CreateFile
                    (Go.Join [env.config.BuildPath, a.localeFolder, "post".toList,
                      ".json".toList]) a.pageRouteJson]
              ++ post.Versions.map (fun w =>
                    FsOp.CreateFile
                      (Go.Join [env.config.BuildPath, a.localeFolder, "post".toList,
                        w.Permalink ++ ".html".toList])
                      (GetRedirectScript ".html".toList))) := by
  have hlast := lastVersion_none locale post.Versions hnone
  have hvt : versionAndTitle env route post locale
      = (PostVersion.zero, withSiteTitle env.config (GetMultiLanguageText route.Title locale.Id)) := by
    simp only [versionAndTitle, hpost, if_true, versionLoop_eq, hlast]
  have hcv : (assembled env route post locale).currentVersion = PostVersion.zero := by
    simp only [assembled, hvt]
  have hn : ¬ ("post".toList = "normal".toList) := by decide
  have hfilter : post.Versions.filter (fun w => decide (w.LangId ≠ locale.Id)) = post.Versions :=
    filter_all _ _ (fun w hw => by simpa using hnone w hw)
  have d0 : tokPostTitle ≠ tokPageMain := by decide
  have d1 : tokPostTitle ≠ tokPageLang := by decide
  have d2 : tokPostTitle ≠ tokPageReplaceExtension := by decide
  have d3 : tokPostTitle ≠ tokPageTitle := by decide
  have d4 : tokPostTitle ≠ tokPageHeader := by decide
  have d5 : tokPostTitle ≠ tokPageSidebar := by decide
  have vtitle : passValue env route post locale tokPageTitle
      = GetMultiLanguageText route.Title locale.Id ++ " ".toList
          ++ env.config.SiteTitleSeparator ++ " ".toList ++ env.config.SiteTitle := by
    rw [passValue_eq]
    have e1 : tokPageTitle ≠ tokPageLang := by decide
    have e2 : tokPageTitle ≠ tokPageReplaceExtension := by decide
    simp only [tokenValue, e1, e2, if_false, if_true, hvt]
    rfl
  have vpost : passValue env route post locale tokPostTitle = [] := by
    rw [passValue_eq]
    simp only [tokenValue, d0, d1, d2, d3, d4, d5, if_false, if_true, hvt]
    rfl
  have vcont : passValue env route post locale tokPostContents
      = ReadFile env.files (Go.Join [env.config.DataPath, "/posts/".toList, []]) := by
    rw [passValue_eq]
    have c0 : tokPostContents ≠ tokPageMain := by decide
    have c1 : tokPostContents ≠ tokPageLang := by decide
    have c2 : tokPostContents ≠ tokPageReplaceExtension := by decide
    have c3 : tokPostContents ≠ tokPageTitle := by decide
    have c4 : tokPostContents ≠ tokPageHeader := by decide
    have c5 : tokPostContents ≠ tokPageSidebar := by decide
    have c6 : tokPostContents ≠ tokPostTitle := by decide
    simp only [tokenValue, c0, c1, c2, c3, c4, c5, c6, if_false, if_true, hvt]
    rfl
  have hold : oldStringsOf route = oldStringsNormal ++ [tokPostTitle, tokPostContents] := by
    unfold oldStringsOf
    rw [if_pos hpost]
  refine ⟨assembled env route post locale, assemble_some env route post locale, hcv, ?_, vtitle,
    vpost, ?_, ?_, rfl, ?_⟩
  · simp only [assembled, exportedPage, hvt]
    rfl
  · have hp : (assembled env route post locale).pageHtml
        = (passesOf env route post locale).foldl (fun s p => Go.ReplaceAll s p.1 p.2)
            env.baseHtml := pageHtml_passes env route post locale
    rw [hp]
    unfold passesOf
    rw [hold]
    simp only [List.map_append, List.map_cons, List.map_nil, List.foldl_append, List.foldl_cons,
      List.foldl_nil, List.foldl_map, vpost, vcont]
  · intro localeFolder pageTitle mainHtml mainScripts
    rw [hcv, newStringFor_eq]
    simp only [tokenValue, d0, d1, d2, d3, d4, d5, if_false, if_true]
    rfl
  · rw [generatePage_some]
    simp only [pageWrites, hpost, hn, if_false, if_true, stubWrites_eq, hcv, hfilter,
      List.append_assoc]
    rfl

set_option maxRecDepth 100000 in
/-- C18, at the example site: the example post has no French version. -/
theorem generatePage_post_no_version_witness :
    (exPostRoute.Type_ = "post".toList ∧ ∀ v ∈ exPost.Versions, v.LangId ≠ exFr.Id) ∧
      ∃ a : Assembled, assemble exEnv exPostRoute exPost exFr = some a ∧
        a.pageRouteObj.Title = "Home | Site".toList ∧
        a.pageHtml.take 26 = "<title>Home | Site</title>".toList ∧
        GeneratePage exEnv exPostRoute exPost exFr
          = some
              [FsOp.Mkdir "build/fr".toList,
               FsOp.CreateFile "build/fr/post/.html".toList a.pageHtml,
               FsOp.CreateFile "build/fr/post/.json".toList a.pageRouteJson,
               FsOp.CreateFile "build/fr/post/p-en.html".toList
                 (GetRedirectScript ".html".toList),
               FsOp.CreateFile "build/fr/post/p-it.html".toList
                 (GetRedirectScript ".html".toList)] := by
  have hnone : ∀ v ∈ exPost.Versions, v.LangId ≠ exFr.Id := by decide
  obtain ⟨a, ha, _, ht, _, _, _, _, hlf, hg⟩ :=
    generatePage_post_no_version exEnv exPostRoute exPost exFr (by decide) hnone
  have hlf2 : a.localeFolder = "fr".toList := by
    rw [hlf]
    decide
  have hd : (assemble exEnv exPostRoute exPost exFr).map (fun a => a.pageHtml.take 26)
      = some "<title>Home | Site</title>".toList := by decide
  refine ⟨⟨by decide, hnone⟩, a, ha, ?_, ?_, ?_⟩
  · rw [ht]
    decide
  · rw [ha] at hd
    exact Option.some.inj hd
  · rw [hg, hlf2]
    rfl

end PaninoWeb
